import Mathlib

set_option maxRecDepth 100000
set_option maxHeartbeats 2000000

/-!
Verification development for a relaxed-JSON (HOCON-like) recursive descent
parser written in Rust on top of the nom 3 combinator library.

The embedding models the byte-slice input as a list of characters and the
nom result type as a three-way outcome: success with the unconsumed
remainder, a hard failure, and the incomplete-input signal.  All parsing
functions are executable, structurally recursive Lean functions; the
mutually recursive grammar is tied with an explicit fuel argument, and the
entry-point wrappers instantiate the fuel with the input length plus one,
which is always enough for the recursion depth the grammar can reach.
-/

/-- Outcome of a parser, mirroring the nom result type: success with the
unconsumed remainder and a value, a hard parse failure, or the signal that
the input ended before the token could be resolved. -/
inductive PResult (α : Type) where
  | done (rest : List Char) (val : α)
  | error
  | incomplete
deriving DecidableEq, Repr

/-- The parsed value tree.  The Rust `JsonValue` enum: objects are hash
maps from strings to values; the model represents them canonically as
association lists sorted strictly by key, and float payloads abstractly by
their recognized lexeme (no claim inspects a float's numeric value). -/
inductive JsonValue where
  | null
  | bool (b : Bool)
  | int (n : Int)
  | flt (lexeme : List Char)
  | str (s : List Char)
  | arr (elems : List JsonValue)
  | obj (entries : List (List Char × JsonValue))

abbrev Parser (α : Type) := List Char → PResult α

/-- nom `map!`: apply a function to the parsed value. -/
def mapP (p : Parser α) (f : α → β) : Parser β := fun input =>
  match p input with
  | .done r v => .done r (f v)
  | .error => .error
  | .incomplete => .incomplete

/-- Sequencing of parsers (the glue behind nom `tuple!` / `delimited!` /
`preceded!`): run `p`, then continue with `f` on the remainder. -/
def bindP (p : Parser α) (f : α → Parser β) : Parser β := fun input =>
  match p input with
  | .done r v => f v r
  | .error => .error
  | .incomplete => .incomplete

/-- nom `complete!`: turn the incomplete-input signal into a hard error. -/
def completeP (p : Parser α) : Parser α := fun input =>
  match p input with
  | .incomplete => .error
  | r => r

/-- nom `alt!` with two branches: try `p`; on a hard error try `q`; an
incomplete result is returned immediately without trying `q`. -/
def alt2 (p q : Parser α) : Parser α := fun input =>
  match p input with
  | .error => q input
  | r => r

/-- nom `alt_complete!` step: each branch is wrapped in `complete!`, so an
incomplete branch is treated as a failure and the next branch is tried. -/
def altc2 (p q : Parser α) : Parser α := fun input =>
  match completeP p input with
  | .done r v => .done r v
  | _ => q input

/-- nom `char!`: match one exact character; incomplete on empty input. -/
def charP (c : Char) : Parser Char := fun input =>
  match input with
  | [] => .incomplete
  | x :: r => if x = c then .done r c else .error

/-- Helper for nom `tag!`: consume the expected characters one by one;
running out of input while the tag still has characters is incomplete. -/
def tag_drop : List Char → Parser Unit
  | [], input => .done input ()
  | _ :: _, [] => .incomplete
  | t0 :: ts, c :: r => if c = t0 then tag_drop ts r else .error

/-- nom `tag!`: recognize an exact character sequence. -/
def tagP (t : List Char) : Parser (List Char) := mapP (tag_drop t) (fun _ => t)

/-- nom `is_digit` on a character: an ASCII decimal digit. -/
def is_digit (c : Char) : Bool := 48 ≤ c.toNat && c.toNat ≤ 57

/-- Maximal run of decimal digits at the front of the input, together with
the remainder. -/
def digit_run : List Char → List Char × List Char
  | [] => ([], [])
  | c :: r =>
    if is_digit c then
      let p := digit_run r
      (c :: p.1, p.2)
    else ([], c :: r)

/-- nom `digit`: one or more decimal digits.  Incomplete on empty input, a
hard error when the first character is not a digit, otherwise the maximal
digit run is consumed (also when it runs to the end of the input). -/
def digit : Parser (List Char) := fun input =>
  match input with
  | [] => .incomplete
  | c :: r =>
    if is_digit c then
      let p := digit_run (c :: r)
      .done p.2 p.1
    else .error

/-- An optional single leading sign character, as recognized by
`opt!(alt!(tag!("+") | tag!("-")))`: the consumed sign and the remainder. -/
def split_sign : List Char → List Char × List Char
  | [] => ([], [])
  | c :: r => if c = '+' || c = '-' then ([c], r) else ([], c :: r)

/-- Numeric value of a run of decimal digit characters. -/
def nat_of_digits (ds : List Char) : Nat :=
  ds.foldl (fun a c => 10 * a + (c.toNat - 48)) 0

/-- Rust `i64::from_str` on the recognized slice (the `parse_to!(i64)`
step): an optional sign followed by at least one digit, rejected when the
value does not fit a signed 64-bit integer. -/
def parse_i64 (s : List Char) : Option Int :=
  let p : Bool × List Char :=
    match s with
    | c :: r =>
      if c = '-' then (true, r)
      else if c = '+' then (false, r)
      else (false, s)
    | [] => (false, s)
  if p.2 ≠ [] ∧ p.2.all is_digit = true then
    let v : Int := if p.1 then -(nat_of_digits p.2 : Int) else (nat_of_digits p.2 : Int)
    if -(2 ^ 63) ≤ v ∧ v ≤ 2 ^ 63 - 1 then some v else none
  else none

/-- The integer denoted by an optional sign followed by a digit run: the
reference value for the integer-literal claims. -/
def int_value (sg ds : List Char) : Int :=
  if sg = ['-'] then -(nat_of_digits ds : Int) else (nat_of_digits ds : Int)

/-- The Rust `json_int` parser: `recognize!(tuple!(opt!(sign), digit))`
fed to `parse_to!(i64)` and wrapped in `JsonValue::Int`. -/
def json_int : Parser JsonValue := fun input =>
  let sp := split_sign input
  match digit sp.2 with
  | .done re ds =>
    match parse_i64 (sp.1 ++ ds) with
    | some n => .done re (.int n)
    | none => .error
  | .error => .error
  | .incomplete => .incomplete

/-- Modelled from the spec: the nom `double` combinator used by
`json_float` lives in the nom crate, whose source is not part of this
repository.  Following the specification, it recognizes the standard
floating-point lexical form — optional sign, digits, optional fractional
part, optional exponent — and rejects the input when the recognized text
contains none of the characters `.`, `e`, `E`, so that a plain integer
literal falls through to the integer rule. -/
def json_float : Parser JsonValue := fun input =>
  let sp := split_sign input
  let d1 := digit_run sp.2
  let fr : List Char × List Char :=
    match d1.2 with
    | '.' :: rr =>
      let d2 := digit_run rr
      ('.' :: d2.1, d2.2)
    | _ => ([], d1.2)
  let ex : List Char × List Char :=
    match fr.2 with
    | c :: rr =>
      if c = 'e' || c = 'E' then
        let sg2 := split_sign rr
        let d3 := digit_run sg2.2
        if d3.1 = [] then ([], fr.2) else (c :: (sg2.1 ++ d3.1), d3.2)
      else ([], fr.2)
    | [] => ([], fr.2)
  if (d1.1 ≠ [] ∨ 2 ≤ fr.1.length) ∧ (fr.1 ≠ [] ∨ ex.1 ≠ []) then
    .done ex.2 (.flt (sp.1 ++ d1.1 ++ fr.1 ++ ex.1))
  else .error

/-- The Rust `json_null` parser. -/
def json_null : Parser JsonValue :=
  mapP (tagP ("null".toList)) (fun _ => JsonValue.null)

/-- The Rust `json_boolean` parser. -/
def json_boolean : Parser JsonValue :=
  alt2 (mapP (tagP ("true".toList)) (fun _ => JsonValue.bool true))
       (mapP (tagP ("false".toList)) (fun _ => JsonValue.bool false))

/-- The Rust `escaped_string` loop: collect characters until an unescaped
quote, decoding each backslash-quote pair to a quote; the closing quote is
left in the remainder.  Reaching the end of the input yields the
incomplete signal. -/
def escaped_string : Parser (List Char)
  | [] => .incomplete
  | '\\' :: '"' :: r =>
    match escaped_string r with
    | .done re s => .done re ('"' :: s)
    | .error => .error
    | .incomplete => .incomplete
  | '"' :: r => .done ('"' :: r) []
  | c :: r =>
    match escaped_string r with
    | .done re s => .done re (c :: s)
    | .error => .error
    | .incomplete => .incomplete

/-- The Rust `json_string` parser: a quote, the escape-processing loop,
and the closing quote.  The UTF-8 decoding step of the Rust code cannot
fail in the character-level model. -/
def json_string : Parser JsonValue :=
  bindP (charP '"') (fun _ =>
    bindP escaped_string (fun s =>
      mapP (charP '"') (fun _ => JsonValue.str s)))

/-- State machine for the Rust `json_whitespace` loop.  The flag records
being inside a line comment (entered at `#` or `//`, left at a newline,
which the main loop then consumes).  Returns the consumed run and the
remainder. -/
def wsGo : Bool → List Char → List Char × List Char
  | _, [] => ([], [])
  | true, c :: r =>
    if c = '\n' then
      let p := wsGo false r
      ('\n' :: p.1, p.2)
    else
      let p := wsGo true r
      (c :: p.1, p.2)
  | false, c :: r =>
    if c = ' ' || c = '\t' || c = '\n' then
      let p := wsGo false r
      (c :: p.1, p.2)
    else if c = '#' then
      let p := wsGo true r
      (c :: p.1, p.2)
    else if c = '/' then
      match r with
      | '/' :: r2 =>
        let p := wsGo true r2
        ('/' :: '/' :: p.1, p.2)
      | _ => ([], c :: r)
    else ([], c :: r)

/-- The Rust `json_whitespace` parser: consume a maximal run of spaces,
tabs, newlines, `#` line comments and `//` line comments; never fails. -/
def json_whitespace : Parser (List Char) := fun input =>
  let p := wsGo false input
  .done p.2 p.1

/-- State machine for the Rust `inferrable_comma` loop: like the
whitespace scanner but it additionally consumes at most one comma and
tracks whether a newline and whether a comma were consumed.  The first
flag is the in-comment state, the second the newline flag, the third the
comma flag; the result carries the consumed run, the remainder and the
final newline and comma flags. -/
def sepGo : Bool → Bool → Bool → List Char → List Char × List Char × Bool × Bool
  | _, nlF, cF, [] => ([], [], nlF, cF)
  | true, nlF, cF, c :: r =>
    if c = '\n' then
      let p := sepGo false true cF r
      ('\n' :: p.1, p.2.1, p.2.2.1, p.2.2.2)
    else
      let p := sepGo true nlF cF r
      (c :: p.1, p.2.1, p.2.2.1, p.2.2.2)
  | false, nlF, cF, c :: r =>
    if c = ' ' || c = '\t' then
      let p := sepGo false nlF cF r
      (c :: p.1, p.2.1, p.2.2.1, p.2.2.2)
    else if c = '\n' then
      let p := sepGo false true cF r
      (c :: p.1, p.2.1, p.2.2.1, p.2.2.2)
    else if c = '#' then
      let p := sepGo true nlF cF r
      (c :: p.1, p.2.1, p.2.2.1, p.2.2.2)
    else if c = ',' && !cF then
      let p := sepGo false nlF true r
      (c :: p.1, p.2.1, p.2.2.1, p.2.2.2)
    else if c = '/' then
      match r with
      | '/' :: r2 =>
        let p := sepGo true nlF cF r2
        ('/' :: '/' :: p.1, p.2.1, p.2.2.1, p.2.2.2)
      | _ => ([], c :: r, nlF, cF)
    else ([], c :: r, nlF, cF)

/-- The Rust `inferrable_comma` parser: consume whitespace, comments and
at most one comma; succeed only when the consumed run contained a comma or
a newline, fail otherwise. -/
def inferrable_comma : Parser (List Char) := fun input =>
  let p := sepGo false false false input
  if p.2.2.1 || p.2.2.2 then .done p.2.1 p.1 else .error

/-- Strict lexicographic order on keys (lists of characters), used only to
keep the association-list representation of the Rust hash map canonical:
list equality of canonical representations coincides with equality of the
underlying maps. -/
def keyLt : List Char → List Char → Bool
  | [], [] => false
  | [], _ :: _ => true
  | _ :: _, [] => false
  | a :: as, b :: bs =>
    if a.toNat < b.toNat then true
    else if b.toNat < a.toNat then false
    else keyLt as bs

/-- Association-list lookup, modelling `HashMap::get` / `HashMap::remove`
result on the canonical representation. -/
def lookupK : List (List Char × JsonValue) → List Char → Option JsonValue
  | [], _ => none
  | kv :: r, q => if q = kv.1 then some kv.2 else lookupK r q

/-- Insert a key/value pair into a canonical (key-sorted) association
list, replacing the entry when the key is already present.  This models
`HashMap::remove` followed by `HashMap::insert`. -/
def insertSorted (k : List Char) (v : JsonValue) :
    List (List Char × JsonValue) → List (List Char × JsonValue)
  | [] => [(k, v)]
  | kv :: rest =>
    if keyLt k kv.1 then (k, v) :: kv :: rest
    else if keyLt kv.1 k then kv :: insertSorted k v rest
    else (k, v) :: rest

/-- The keys of the association list are strictly increasing: this is the
canonical-representation invariant of parsed objects. -/
def sortedKeys : List (List Char × JsonValue) → Bool
  | [] => true
  | [_] => true
  | kv1 :: kv2 :: rest => keyLt kv1.1 kv2.1 && sortedKeys (kv2 :: rest)

mutual

/-- The Rust `merge_json` function: two objects are merged recursively
key by key, any other combination of values is resolved in favor of the
second (new) value. -/
def merge_json : JsonValue → JsonValue → JsonValue
  | .obj old, .obj new => .obj (merge_into old new)
  | _, new => new
termination_by _ b => sizeOf b

/-- The loop inside `merge_json`: fold the entries of the new object into
the previous object; a key already bound in the accumulated object is
combined with the new value by `merge_json`, an unbound key takes the new
value directly. -/
def merge_into (old : List (List Char × JsonValue)) :
    List (List Char × JsonValue) → List (List Char × JsonValue)
  | [] => old
  | (k, v) :: rest =>
    merge_into
      (insertSorted k
        (match lookupK old k with
         | some o => merge_json o v
         | none => v)
        old)
      rest
termination_by l => sizeOf l

end

/-- One key collision step, as it appears both inside `merge_into` and in
the object-body fold of `json_object_root`: when the key was already
bound, merge the old value with the new one, otherwise take the new
value. -/
def merge_key : Option JsonValue → JsonValue → JsonValue
  | some old, v => merge_json old v
  | none, v => v

/-- Whether a value is an object. -/
def isObjB : JsonValue → Bool
  | .obj _ => true
  | _ => false

/-- The fold inside the Rust `json_object_root`: accumulate the parsed
key/value pairs into a map, merging repeated keys with `merge_json`; pairs
whose key is not a string value are skipped (they cannot arise from the
grammar). -/
def fold_pairs (pairs : List (JsonValue × JsonValue)) : JsonValue :=
  .obj (pairs.foldl
    (fun ob kv =>
      match kv.1 with
      | .str k => insertSorted k (merge_key (lookupK ob k) kv.2) ob
      | _ => ob)
    [])

/-- The loop of nom `separated_list_complete!` after the first element:
repeatedly parse a separator and a further element, both wrapped in
`complete!`; when the element after a separator fails, the separator is
not consumed.  The fuel bounds the number of iterations; the wrappers
always supply enough. -/
def sep_list_loop (sep : Parser α) (item : Parser β) :
    Nat → List β → Parser (List β)
  | 0, _ => fun _ => .error
  | f + 1, acc => fun input =>
    match completeP sep input with
    | .done r1 _ =>
      match completeP item r1 with
      | .done r2 v => sep_list_loop sep item f (acc ++ [v]) r2
      | _ => .done input acc
    | _ => .done input acc

/-- nom `separated_list_complete!`: zero or more elements separated by the
separator; a failing (or incomplete) first element yields the empty list
with nothing consumed. -/
def sep_list (lf : Nat) (sep : Parser α) (item : Parser β) : Parser (List β) := fun input =>
  match completeP item input with
  | .done r v => sep_list_loop sep item lf [v] r
  | _ => .done input []

/-- The Rust `json_array` parser, parameterized by the element parser (the
recursive occurrence of `json_value`) and the list fuel. -/
def json_array (lf : Nat) (jv : Parser JsonValue) : Parser JsonValue :=
  bindP (charP '[') (fun _ =>
    bindP json_whitespace (fun _ =>
      bindP (sep_list lf inferrable_comma jv) (fun elems =>
        bindP json_whitespace (fun _ =>
          mapP (charP ']') (fun _ => JsonValue.arr elems)))))

/-- One `key <sep> value` pair of the Rust `json_object_root` grammar,
parameterized by the recursive occurrences of `json_object` and
`json_value`: a string key followed either directly by an object literal
(after whitespace) or by `:`/`=` and an arbitrary value. -/
def json_pair (jobj jv : Parser JsonValue) : Parser (JsonValue × JsonValue) :=
  bindP json_string (fun k =>
    mapP
      (alt2 (bindP json_whitespace (fun _ => jobj))
            (bindP json_whitespace (fun _ =>
              bindP (alt2 (charP ':') (charP '=')) (fun _ =>
                bindP json_whitespace (fun _ => jv)))))
      (fun v => (k, v)))

/-- The Rust `json_object_root` parser: a separated list of pairs folded
into an object with merging of repeated keys. -/
def json_object_root (lf : Nat) (jobj jv : Parser JsonValue) : Parser JsonValue :=
  mapP (sep_list lf inferrable_comma (json_pair jobj jv)) fold_pairs

/-- The Rust `json_object` parser: an object body enclosed in braces with
whitespace inside them. -/
def json_object (jroot : Parser JsonValue) : Parser JsonValue :=
  bindP (charP '\x7b') (fun _ =>
    bindP json_whitespace (fun _ =>
      bindP jroot (fun v =>
        bindP json_whitespace (fun _ =>
          mapP (charP '\x7d') (fun _ => v)))))

/-- The Rust `json_value` dispatcher: `alt_complete!` over the null,
boolean, float, integer, string, array and object rules, in source
order. -/
def json_value (jarr jobj : Parser JsonValue) : Parser JsonValue :=
  altc2 json_null
    (altc2 json_boolean
      (altc2 json_float
        (altc2 json_int
          (altc2 json_string
            (altc2 jarr (completeP jobj))))))

/-- The fuel-indexed knot of the mutually recursive grammar.  Level
`f + 1` builds `json_value` and `json_object_root` from the parsers of
level `f`; level `0` fails.  The first component is `json_value`, the
second `json_object_root`. -/
def jsonCore : Nat → Parser JsonValue × Parser JsonValue
  | 0 => (fun _ => .error, fun _ => .error)
  | f + 1 =>
    let p := jsonCore f
    let jobj := json_object p.2
    let jv := json_value (json_array f p.1) jobj
    (jv, json_object_root f jobj jv)

/-- The Rust `json_value_root` parser: whitespace, then either a braced
object or a brace-less object body, then whitespace. -/
def json_value_root (f : Nat) : Parser JsonValue :=
  bindP json_whitespace (fun _ =>
    bindP (alt2 (json_object (jsonCore f).2) (jsonCore f).2) (fun v =>
      mapP json_whitespace (fun _ => v)))

/-- Entry point for `json_value`, with fuel instantiated from the input
length (always sufficient: every recursion level consumes input). -/
def run_value (input : List Char) : PResult JsonValue :=
  (jsonCore (input.length + 1)).1 input

/-- Entry point for `json_value_root`, with fuel instantiated from the
input length. -/
def run_value_root (input : List Char) : PResult JsonValue :=
  json_value_root (input.length + 1) input

mutual

/-- Well-formedness of a value in the canonical model (first component of
the mutual definition): every object entry list is strictly key-sorted and
every member value is well formed.  These are exactly the values that
represent Rust value trees. -/
def wfJ : JsonValue → Bool
  | .obj l => sortedKeys l && wfL l
  | _ => true
termination_by v => sizeOf v

/-- Well-formedness of object entry lists (second component of the mutual
definition with `wfJ`). -/
def wfL : List (List Char × JsonValue) → Bool
  | [] => true
  | (_, v) :: r => wfJ v && wfL r
termination_by l => sizeOf l

end

mutual

/-- Object-compatibility of a middle and a last merge argument: wherever
the last value is an object, the middle one is an object as well, and the
values at common keys are again compatible.  Under this condition the
merge of three values is associative. -/
def objCompat : JsonValue → JsonValue → Bool
  | b, .obj cl =>
    (match b with
     | .obj bl => objCompatL bl cl
     | _ => false)
  | _, _ => true
termination_by _ c => sizeOf c

/-- Per-entry object-compatibility check (second component of the mutual
definition with `objCompat`). -/
def objCompatL (bl : List (List Char × JsonValue)) :
    List (List Char × JsonValue) → Bool
  | [] => true
  | (k, cv) :: rest =>
    (match lookupK bl k with
     | some bv => objCompat bv cv
     | none => true) && objCompatL bl rest
termination_by l => sizeOf l

end

/-- One lexical element of a separator run: a space, a tab, a newline, a
comma, or a line comment (hash or double slash) whose body is the comment
text up to, and not including, the terminating newline. -/
inductive SepTok where
  | sp
  | tab
  | nl
  | comma
  | hashC (body : List Char)
  | slashC (body : List Char)

/-- The characters a separator token stands for. -/
def flatTok : SepTok → List Char
  | .sp => [' ']
  | .tab => ['\t']
  | .nl => ['\n']
  | .comma => [',']
  | .hashC body => '#' :: body
  | .slashC body => '/' :: '/' :: body

/-- The characters a separator run stands for. -/
def flatToks : List SepTok → List Char
  | [] => []
  | t :: r => flatTok t ++ flatToks r

/-- Whether a separator token is a line comment. -/
def isCommentTok : SepTok → Bool
  | .hashC _ => true
  | .slashC _ => true
  | _ => false

/-- The body of a comment token (empty for the other tokens). -/
def tokBody : SepTok → List Char
  | .hashC b => b
  | .slashC b => b
  | _ => []

/-- Well-formed separator runs: comment bodies contain no newline, and a
comment is followed by a newline token or ends the run, since a comment
extends to the next newline or to the end of the input. -/
def wfToks : List SepTok → Bool
  | [] => true
  | t :: r =>
    (tokBody t).all (fun c => c ≠ '\n')
      && (if isCommentTok t then
            match r with
            | [] => true
            | .nl :: _ => wfToks r
            | _ => false
          else wfToks r)

/-- Number of comma tokens in a separator run. -/
def countComma : List SepTok → Nat
  | [] => 0
  | .comma :: r => countComma r + 1
  | _ :: r => countComma r

/-- Number of newline tokens in a separator run. -/
def countNl : List SepTok → Nat
  | [] => 0
  | .nl :: r => countNl r + 1
  | _ :: r => countNl r

/-- Bundled induction statement for the separator scanner: the consumed
run of a scan (in normal mode) decomposes into a well-formed token list
whose comma and newline token counts explain the scanner's flags.  The
two flag arguments are the scanner's incoming newline and comma flags. -/
def SepToksOk (nlF cF : Bool) (input : List Char) : Prop :=
  ∃ toks, wfToks toks = true ∧
    flatToks toks = (sepGo false nlF cF input).1 ∧
    (sepGo false nlF cF input).1 ++ (sepGo false nlF cF input).2.1 = input ∧
    (cF = false → countComma toks = (if (sepGo false nlF cF input).2.2.2 = true then 1 else 0)) ∧
    (cF = true → countComma toks = 0 ∧ (sepGo false nlF cF input).2.2.2 = true) ∧
    (nlF = false → (1 ≤ countNl toks ↔ (sepGo false nlF cF input).2.2.1 = true)) ∧
    (nlF = true → (sepGo false nlF cF input).2.2.1 = true)

/-- Unfolding lemma: merging two objects merges their entry lists. -/
theorem merge_json_obj (old new : List (List Char × JsonValue)) :
    merge_json (.obj old) (.obj new) = .obj (merge_into old new) := by
  rw [merge_json.eq_def]

/-- Unfolding lemma: when either side is not an object, the new value
wins unconditionally. -/
theorem merge_json_other (a b : JsonValue) (h : (isObjB a && isObjB b) = false) :
    merge_json a b = b := by
  rw [merge_json.eq_def]
  cases a <;> cases b <;> simp [isObjB] at h ⊢

/-- Unfolding lemma: folding an empty entry list changes nothing. -/
theorem merge_into_nil (old : List (List Char × JsonValue)) :
    merge_into old [] = old := by
  rw [merge_into.eq_def]

/-- Unfolding lemma: one step of the entry fold of `merge_into`. -/
theorem merge_into_cons (old : List (List Char × JsonValue)) (k : List Char)
    (v : JsonValue) (rest : List (List Char × JsonValue)) :
    merge_into old ((k, v) :: rest)
      = merge_into (insertSorted k (merge_key (lookupK old k) v) old) rest := by
  rw [merge_into.eq_def]
  cases h : lookupK old k <;> simp [h, merge_key]

/-- C7: inserting whitespace, hash comments or slash comments at the skip
points does not change the parsed value: the four spec inputs all parse to
the two-element array of the integers one and two, with nothing left. -/
theorem whitespace_comment_insertion_invariance :
    run_value ("[1,2]".toList) = .done [] (.arr [.int 1, .int 2]) ∧
    run_value ("[ 1 , 2 ]".toList) = .done [] (.arr [.int 1, .int 2]) ∧
    run_value ("[1\n2]".toList) = .done [] (.arr [.int 1, .int 2]) ∧
    run_value ("[1#c\n2]".toList) = .done [] (.arr [.int 1, .int 2]) :=
  ⟨rfl, rfl, rfl, rfl⟩

/-- C8: the surface-syntax variants parse to identical trees: the
brace-less root document equals the braced one, `=` equals `:` as a pair
separator, and the separator may be omitted before a nested object
value. -/
theorem surface_syntax_equivalences :
    run_value_root ("\"a\" = 42".toList) = run_value_root ("\x7b\"a\": 42\x7d".toList) ∧
    run_value_root ("\"a\" = 42".toList) = .done [] (.obj [("a".toList, .int 42)]) ∧
    run_value ("\x7b\"a\":42\x7d".toList) = run_value ("\x7b\"a\"=42\x7d".toList) ∧
    run_value ("\x7b\"a\" \x7b\"b\":1\x7d\x7d".toList)
      = run_value ("\x7b\"a\":\x7b\"b\":1\x7d\x7d".toList) ∧
    run_value ("\x7b\"a\" \x7b\"b\":1\x7d\x7d".toList)
      = .done [] (.obj [("a".toList, .obj [("b".toList, .int 1)])]) := by
  have h1 : run_value_root ("\"a\" = 42".toList)
      = .done [] (.obj [("a".toList, .int 42)]) := rfl
  have h2 : run_value_root ("\x7b\"a\": 42\x7d".toList)
      = .done [] (.obj [("a".toList, .int 42)]) := rfl
  have h3 : run_value ("\x7b\"a\":42\x7d".toList)
      = .done [] (.obj [("a".toList, .int 42)]) := rfl
  have h4 : run_value ("\x7b\"a\"=42\x7d".toList)
      = .done [] (.obj [("a".toList, .int 42)]) := rfl
  have h5 : run_value ("\x7b\"a\" \x7b\"b\":1\x7d\x7d".toList)
      = .done [] (.obj [("a".toList, .obj [("b".toList, .int 1)])]) := rfl
  have h6 : run_value ("\x7b\"a\":\x7b\"b\":1\x7d\x7d".toList)
      = .done [] (.obj [("a".toList, .obj [("b".toList, .int 1)])]) := rfl
  exact ⟨h1.trans h2.symm, h1, h3.trans h4.symm, h5.trans h6.symm, h5⟩

/-- C3 counterexample: trailing data does not make the root parse fail.
On an input consisting of an empty object followed by garbage, the root
parser succeeds and simply returns the garbage as the unconsumed
remainder, contradicting the claim that leftover input is a parse
failure. -/
theorem root_trailing_data_cex :
    run_value_root ("\x7b\x7d@@@".toList) = .done ("@@@".toList) (.obj []) ∧
    run_value_root ("\x7b\x7d@@@".toList) ≠ .error := by
  refine ⟨rfl, ?_⟩
  intro h
  exact PResult.noConfusion
    ((rfl : run_value_root ("\x7b\x7d@@@".toList)
        = .done ("@@@".toList) (.obj [])).symm.trans h)

/-- C3 amended: the root parser accepts exactly one top-level construct
and returns any input it did not consume in the remainder of a successful
result instead of failing; detecting trailing data is the caller's job
(an empty remainder on a fully valid document, the unconsumed garbage
otherwise). -/
theorem root_trailing_data_amended :
    run_value_root (" \x7b\"a\":1\x7d ".toList) = .done [] (.obj [("a".toList, .int 1)]) ∧
    run_value_root ("\x7b\x7d@@@".toList) = .done ("@@@".toList) (.obj []) ∧
    run_value_root ("\x7b\"a\":1\x7d \"b\"".toList)
      = .done ("\"b\"".toList) (.obj [("a".toList, .int 1)]) :=
  ⟨rfl, rfl, rfl⟩

/-- C4 counterexample: an unterminated string fed to the value dispatcher
does not produce the incomplete outcome (the dispatcher's
complete-wrapped alternation converts it into a hard failure). -/
theorem unterminated_string_cex :
    run_value ("\"abc".toList) ≠ .incomplete := by
  intro h
  exact PResult.noConfusion
    ((rfl : run_value ("\"abc".toList) = PResult.error).symm.trans h)

/-- C4 amended: the string-level parsers (`escaped_string` and
`json_string`) signal incomplete input on an unterminated string, but the
value dispatcher `json_value` wraps every alternative in `complete!`, so
through the dispatcher both an unterminated string and an unparseable
token yield a hard Malformed failure. -/
theorem unterminated_string_amended :
    escaped_string ("abc".toList) = .incomplete ∧
    json_string ("\"abc".toList) = .incomplete ∧
    run_value ("\"abc".toList) = .error ∧
    run_value ("@@@".toList) = .error :=
  ⟨rfl, rfl, rfl, rfl⟩
theorem digit_run_all (ds : List Char) (h : ds.all is_digit = true) :
    digit_run ds = (ds, []) := by
  induction ds with
  | nil => rfl
  | cons c r ih =>
    simp only [List.all_cons, Bool.and_eq_true] at h
    simp [digit_run, h.1, ih h.2]

theorem digit_all (ds : List Char) (hne : ds ≠ []) (h : ds.all is_digit = true) :
    digit ds = .done [] ds := by
  cases ds with
  | nil => exact absurd rfl hne
  | cons c r =>
    have h1 : is_digit c = true := by
      simp only [List.all_cons, Bool.and_eq_true] at h
      exact h.1
    simp [digit, h1, digit_run_all _ h]

theorem is_digit_ne (c x : Char) (h : is_digit c = true) (hx : is_digit x = false) :
    c ≠ x := by
  intro e
  rw [e, hx] at h
  cases h

theorem split_sign_eval (sg ds : List Char)
    (hs : sg = [] ∨ sg = ['+'] ∨ sg = ['-'])
    (hne : ds ≠ []) (hd : ds.all is_digit = true) :
    split_sign (sg ++ ds) = (sg, ds) := by
  rcases hs with rfl | rfl | rfl
  · cases ds with
    | nil => exact absurd rfl hne
    | cons c r =>
      have h1 : is_digit c = true := by
        simp only [List.all_cons, Bool.and_eq_true] at hd
        exact hd.1
      have hp : c ≠ '+' := is_digit_ne _ _ h1 (by decide)
      have hm : c ≠ '-' := is_digit_ne _ _ h1 (by decide)
      simp [split_sign, hp, hm]
  · simp [split_sign]
  · simp [split_sign]

theorem parse_i64_eval (sg ds : List Char)
    (hs : sg = [] ∨ sg = ['+'] ∨ sg = ['-'])
    (hne : ds ≠ []) (hd : ds.all is_digit = true) :
    parse_i64 (sg ++ ds)
      = if -(2 ^ 63) ≤ int_value sg ds ∧ int_value sg ds ≤ 2 ^ 63 - 1
        then some (int_value sg ds) else none := by
  rcases hs with rfl | rfl | rfl
  · cases ds with
    | nil => exact absurd rfl hne
    | cons c r =>
      have h1 : is_digit c = true := by
        simp only [List.all_cons, Bool.and_eq_true] at hd
        exact hd.1
      have hp : c ≠ '+' := is_digit_ne _ _ h1 (by decide)
      have hm : c ≠ '-' := is_digit_ne _ _ h1 (by decide)
      simp [parse_i64, hp, hm, hd, int_value]
  · simp [parse_i64, hd, int_value, hne]
  · simp [parse_i64, hd, int_value, hne]

theorem json_int_literal (sg ds : List Char)
    (hs : sg = [] ∨ sg = ['+'] ∨ sg = ['-'])
    (hne : ds ≠ []) (hd : ds.all is_digit = true) :
    json_int (sg ++ ds)
      = if -(2 ^ 63) ≤ int_value sg ds ∧ int_value sg ds ≤ 2 ^ 63 - 1
        then .done [] (.int (int_value sg ds)) else .error := by
  have hsp := split_sign_eval sg ds hs hne hd
  have hdg := digit_all ds hne hd
  have hpi := parse_i64_eval sg ds hs hne hd
  by_cases hr : -(2 ^ 63) ≤ int_value sg ds ∧ int_value sg ds ≤ 2 ^ 63 - 1
  · rw [if_pos hr] at hpi
    simp only [json_int, hsp, hdg, hpi]
    rw [if_pos hr]
  · rw [if_neg hr] at hpi
    simp only [json_int, hsp, hdg, hpi]
    rw [if_neg hr]

/-- C9: the integer parser on a signed decimal digit run: it succeeds with
exactly the denoted value when that value fits a signed 64-bit integer,
and fails with a hard error (no wraparound) when it does not. -/
theorem json_int_range (sg ds : List Char)
    (hs : sg = [] ∨ sg = ['+'] ∨ sg = ['-'])
    (hne : ds ≠ []) (hd : ds.all is_digit = true) :
    (-(2 ^ 63) ≤ int_value sg ds ∧ int_value sg ds ≤ 2 ^ 63 - 1 →
      json_int (sg ++ ds) = .done [] (.int (int_value sg ds))) ∧
    (¬(-(2 ^ 63) ≤ int_value sg ds ∧ int_value sg ds ≤ 2 ^ 63 - 1) →
      json_int (sg ++ ds) = .error) := by
  constructor <;> intro h <;> rw [json_int_literal sg ds hs hne hd]
  · rw [if_pos h]
  · rw [if_neg h]

/-- C9 witness: the extreme fitting value and the smallest overflowing
value, evaluated concretely. -/
theorem json_int_range_witness :
    json_int ("-9223372036854775808".toList) = .done [] (.int (-9223372036854775808)) ∧
    json_int ("9223372036854775808".toList) = .error := by
  constructor
  · have h := (json_int_range ['-'] ("9223372036854775808".toList)
      (Or.inr (Or.inr rfl)) (by decide) (by decide)).1 (by decide)
    have e : int_value ['-'] ("9223372036854775808".toList) = -9223372036854775808 := by decide
    rw [e] at h
    exact h
  · have h := (json_int_range [] ("9223372036854775808".toList)
      (Or.inl rfl) (by decide) (by decide)).2 (by decide)
    exact h

theorem altc2_err {p q : Parser α} {input : List Char} (h : p input = .error) :
    altc2 p q input = q input := by
  simp [altc2, completeP, h]

theorem altc2_inc {p q : Parser α} {input : List Char} (h : p input = .incomplete) :
    altc2 p q input = q input := by
  simp [altc2, completeP, h]

theorem altc2_done {p q : Parser α} {input : List Char} {r : List Char} {v : α}
    (h : p input = .done r v) : altc2 p q input = .done r v := by
  simp [altc2, completeP, h]

theorem tag_drop_head_ne (t0 c : Char) (ts r : List Char) (h : c ≠ t0) :
    tag_drop (t0 :: ts) (c :: r) = .error := by
  simp [tag_drop, h]

theorem json_null_head_ne (c : Char) (r : List Char) (h : c ≠ 'n') :
    json_null (c :: r) = .error := by
  have e : ("null".toList) = 'n' :: 'u' :: 'l' :: 'l' :: [] := rfl
  simp [json_null, tagP, mapP, e, tag_drop_head_ne _ _ _ _ h]

theorem json_boolean_head_ne (c : Char) (r : List Char) (ht : c ≠ 't') (hf : c ≠ 'f') :
    json_boolean (c :: r) = .error := by
  have e1 : ("true".toList) = 't' :: 'r' :: 'u' :: 'e' :: [] := rfl
  have e2 : ("false".toList) = 'f' :: 'a' :: 'l' :: 's' :: 'e' :: [] := rfl
  simp [json_boolean, alt2, tagP, mapP, e1, e2,
        tag_drop_head_ne _ _ _ _ ht, tag_drop_head_ne _ _ _ _ hf]

theorem json_float_digits (sg ds : List Char)
    (hs : sg = [] ∨ sg = ['+'] ∨ sg = ['-'])
    (hne : ds ≠ []) (hd : ds.all is_digit = true) :
    json_float (sg ++ ds) = .error := by
  have hsp := split_sign_eval sg ds hs hne hd
  have hrun := digit_run_all ds hd
  simp [json_float, hsp, hrun]

theorem run_value_unfold (input : List Char) :
    run_value input
      = json_value (json_array input.length (jsonCore input.length).1)
          (json_object (jsonCore input.length).2) input := rfl

theorem json_value_int_aux (jarr jobj : Parser JsonValue) (sg ds : List Char)
    (hs : sg = [] ∨ sg = ['+'] ∨ sg = ['-'])
    (hne : ds ≠ []) (hd : ds.all is_digit = true)
    (hr : -(2 ^ 63) ≤ int_value sg ds ∧ int_value sg ds ≤ 2 ^ 63 - 1) :
    json_value jarr jobj (sg ++ ds) = .done [] (.int (int_value sg ds)) := by
  obtain ⟨c, r, hin, h1, h2, h3⟩ :
      ∃ c r, sg ++ ds = c :: r ∧ c ≠ 'n' ∧ c ≠ 't' ∧ c ≠ 'f' := by
    rcases hs with rfl | rfl | rfl
    · cases ds with
      | nil => exact absurd rfl hne
      | cons c r =>
        have h1 : is_digit c = true := by
          simp only [List.all_cons, Bool.and_eq_true] at hd
          exact hd.1
        exact ⟨c, r, rfl, is_digit_ne _ _ h1 (by decide),
          is_digit_ne _ _ h1 (by decide), is_digit_ne _ _ h1 (by decide)⟩
    · exact ⟨'+', ds, rfl, by decide, by decide, by decide⟩
    · exact ⟨'-', ds, rfl, by decide, by decide, by decide⟩
  have hnull : json_null (sg ++ ds) = .error := by
    rw [hin]
    exact json_null_head_ne _ _ h1
  have hbool : json_boolean (sg ++ ds) = .error := by
    rw [hin]
    exact json_boolean_head_ne _ _ h2 h3
  have hflt := json_float_digits sg ds hs hne hd
  have hint := (json_int_range sg ds hs hne hd).1 hr
  show altc2 json_null (altc2 json_boolean (altc2 json_float (altc2 json_int
    (altc2 json_string (altc2 jarr (completeP jobj)))))) (sg ++ ds)
      = .done [] (.int (int_value sg ds))
  rw [altc2_err hnull, altc2_err hbool, altc2_err hflt, altc2_done hint]

/-- C1: every optionally signed decimal literal whose value fits a signed
64-bit integer and which contains no dot or exponent marker is parsed by
the value dispatcher to the exact corresponding Int value, not to a
float. -/
theorem json_value_int_literal (sg ds : List Char)
    (hs : sg = [] ∨ sg = ['+'] ∨ sg = ['-'])
    (hne : ds ≠ []) (hd : ds.all is_digit = true)
    (hr : -(2 ^ 63) ≤ int_value sg ds ∧ int_value sg ds ≤ 2 ^ 63 - 1) :
    run_value (sg ++ ds) = .done [] (.int (int_value sg ds)) := by
  rw [run_value_unfold]
  exact json_value_int_aux _ _ sg ds hs hne hd hr

/-- C1 witness: the literal minus forty-two evaluates to the Int value
minus forty-two through the value dispatcher. -/
theorem json_value_int_literal_witness :
    run_value ("-42".toList) = .done [] (.int (-42)) := by
  have h := json_value_int_literal ['-'] ('4' :: '2' :: [])
    (Or.inr (Or.inr rfl)) (by decide) (by decide) (by decide)
  have e : int_value ['-'] ('4' :: '2' :: []) = -42 := by decide
  rw [e] at h
  exact h
/-- Whether the whitespace scanner would consume at least one character of
the given input: a space, tab, newline, hash, or a double slash. -/
def wsStart : List Char → Bool
  | [] => false
  | c :: r =>
    (c = ' ' || c = '\t' || c = '\n' || c = '#')
      || (c = '/' && (match r with | '/' :: _ => true | _ => false))

theorem wsGo_no_start (l : List Char) (h : wsStart l = false) :
    wsGo false l = ([], l) := by
  cases l with
  | nil => rfl
  | cons c r =>
    have h1 : c ≠ ' ' := by intro e; subst e; simp [wsStart] at h
    have h2 : c ≠ '\t' := by intro e; subst e; simp [wsStart] at h
    have h3 : c ≠ '\n' := by intro e; subst e; simp [wsStart] at h
    have h4 : c ≠ '#' := by intro e; subst e; simp [wsStart] at h
    rw [wsGo.eq_def]
    simp only [h1, h2, h3, h4, decide_False, Bool.or_self, Bool.false_or,
      Bool.or_false, if_false, ite_false, reduceIte]
    by_cases hc : c = '/'
    · subst hc
      cases r with
      | nil => simp
      | cons c2 r2 =>
        have h5 : c2 ≠ '/' := by intro e; subst e; simp [wsStart] at h
        simp [h5]
    · simp [hc]

theorem wsGo_stop (input : List Char) : ∀ m, wsStart ((wsGo m input).2) = false := by
  induction input with
  | nil => intro m; cases m <;> rfl
  | cons c r ih =>
    intro m
    cases m with
    | true =>
      by_cases hc : c = '\n'
      · rw [wsGo.eq_def]
        simp only [hc, if_true, reduceIte, decide_True]
        exact ih false
      · rw [wsGo.eq_def]
        simp only [hc, if_false, reduceIte, decide_False, ite_false]
        exact ih true
    | false =>
      by_cases h1 : c = ' ' ∨ c = '\t' ∨ c = '\n'
      · rw [wsGo.eq_def]
        have hb : (decide (c = ' ') || decide (c = '\t') || decide (c = '\n')) = true := by
          rcases h1 with h | h | h <;> simp [h]
        simp only [hb, if_true, reduceIte]
        exact ih false
      · push_neg at h1
        obtain ⟨g1, g2, g3⟩ := h1
        rw [wsGo.eq_def]
        have hb : (decide (c = ' ') || decide (c = '\t') || decide (c = '\n')) = false := by
          simp [g1, g2, g3]
        simp only [hb, Bool.false_eq_true, if_false, reduceIte]
        by_cases h2 : c = '#'
        · simp only [h2, if_true, reduceIte]
          exact ih true
        · simp only [h2, if_false, reduceIte, ite_false]
          by_cases h3 : c = '/'
          · subst h3
            simp only [if_true, reduceIte, decide_True]
            cases r with
            | nil => rfl
            | cons c2 r2 =>
              by_cases h4 : c2 = '/'
              · subst h4
                exact ih true
              · simp [wsStart, g1, g2, g3, h2, h4]
          · simp only [h3, if_false, reduceIte, ite_false]
            simp [wsStart, g1, g2, g3, h2, h3]

theorem wsGo_fix (input : List Char) (m : Bool) :
    wsGo false (wsGo m input).2 = ([], (wsGo m input).2) :=
  wsGo_no_start _ (wsGo_stop input m)

theorem jsonCore_succ_2 (f : Nat) :
    (jsonCore (f + 1)).2
      = json_object_root f (json_object (jsonCore f).2) ((jsonCore (f + 1)).1) := rfl

/-- C10: when the first character after the leading whitespace and
comments neither opens a braced object nor starts a parseable
string-keyed pair, the root parser does not fail: the brace-less
object-body branch matches the empty pair list, so the parse succeeds
with an empty object and the whole non-whitespace input is returned
unconsumed. -/
theorem json_root_no_failure (input : List Char) (c : Char) (r : List Char)
    (hre : (wsGo false input).2 = c :: r)
    (hc : c ≠ '\x7b')
    (hp : completeP (json_pair (json_object (jsonCore input.length).2)
            ((jsonCore (input.length + 1)).1)) (c :: r) = .error) :
    run_value_root input = .done (c :: r) (.obj []) := by
  have hobj : json_object ((jsonCore (input.length + 1)).2) (c :: r) = .error := by
    simp [json_object, bindP, charP, hc]
  have hroot : (jsonCore (input.length + 1)).2 (c :: r) = .done (c :: r) (.obj []) := by
    rw [jsonCore_succ_2]
    simp [json_object_root, mapP, sep_list, hp, fold_pairs]
  have hws1 : json_whitespace input = .done (c :: r) ((wsGo false input).1) := by
    simp [json_whitespace, hre]
  have hws2 : json_whitespace (c :: r) = .done (c :: r) [] := by
    have hfix := wsGo_fix input false
    rw [hre] at hfix
    simp [json_whitespace, hfix]
  show json_value_root (input.length + 1) input = .done (c :: r) (.obj [])
  simp [json_value_root, bindP, alt2, hws1, hws2, hobj, hroot, mapP]

/-- C10 witness: the input consisting of the two digits of forty-two
parses at the root to the empty object with everything unconsumed. -/
theorem json_root_no_failure_witness :
    run_value_root ("42".toList) = .done ("42".toList) (.obj []) := by
  exact json_root_no_failure ("42".toList) '4' ['2'] rfl (by decide) rfl
theorem char_toNat_inj (a b : Char) (h : a.toNat = b.toNat) : a = b := by
  have := congrArg Char.ofNat h
  rwa [Char.ofNat_toNat, Char.ofNat_toNat] at this

theorem keyLt_irrefl (k : List Char) : keyLt k k = false := by
  induction k with
  | nil => rfl
  | cons c r ih => simp [keyLt, ih]

theorem keyLt_total (a b : List Char) (h1 : keyLt a b = false) (h2 : keyLt b a = false) :
    a = b := by
  induction a generalizing b with
  | nil =>
    cases b with
    | nil => rfl
    | cons c r => simp [keyLt] at h1
  | cons c r ih =>
    cases b with
    | nil => simp [keyLt] at h2
    | cons c2 r2 =>
      simp only [keyLt] at h1 h2
      by_cases hl : c.toNat < c2.toNat
      · simp [hl] at h1
      · by_cases hg : c2.toNat < c.toNat
        · simp [hg, hl] at h2
        · have hcc : c = c2 := char_toNat_inj _ _ (Nat.le_antisymm (Nat.not_lt.mp hg) (Nat.not_lt.mp hl))
          simp [hl, hg] at h1 h2
          rw [hcc, ih r2 h1 h2]

theorem keyLt_asymm (a b : List Char) (h : keyLt a b = true) : keyLt b a = false := by
  induction a generalizing b with
  | nil =>
    cases b with
    | nil => simp [keyLt] at h
    | cons c r => rfl
  | cons c r ih =>
    cases b with
    | nil => simp [keyLt] at h
    | cons c2 r2 =>
      simp only [keyLt] at h ⊢
      by_cases hl : c.toNat < c2.toNat
      · simp [hl, Nat.lt_asymm hl, Nat.lt_irrefl]
      · by_cases hg : c2.toNat < c.toNat
        · simp [hl, hg] at h
        · simp [hl, hg] at h ⊢
          exact ih r2 h

theorem keyLt_trans (a b c : List Char) (h1 : keyLt a b = true) (h2 : keyLt b c = true) :
    keyLt a c = true := by
  induction a generalizing b c with
  | nil =>
    cases c with
    | nil =>
      cases b with
      | nil => exact h1
      | cons x y => simp [keyLt] at h2
    | cons x y => rfl
  | cons ca ra ih =>
    cases b with
    | nil => simp [keyLt] at h1
    | cons cb rb =>
      cases c with
      | nil => simp [keyLt] at h2
      | cons cc rc =>
        simp only [keyLt] at h1 h2 ⊢
        by_cases g1 : ca.toNat < cb.toNat <;> by_cases g2 : cb.toNat < cc.toNat
        · simp [Nat.lt_trans g1 g2]
        · by_cases g3 : cc.toNat < cb.toNat
          · simp [g2, g3] at h2
          · have : cb = cc := char_toNat_inj _ _ (Nat.le_antisymm (Nat.not_lt.mp g3) (Nat.not_lt.mp g2))
            subst this
            simp [g1]
        · by_cases g3 : cb.toNat < ca.toNat
          · simp [g1, g3] at h1
          · have : ca = cb := char_toNat_inj _ _ (Nat.le_antisymm (Nat.not_lt.mp g3) (Nat.not_lt.mp g1))
            subst this
            simp [g2]
        · by_cases g3 : cb.toNat < ca.toNat
          · simp [g1, g3] at h1
          · have e1 : ca = cb := char_toNat_inj _ _ (Nat.le_antisymm (Nat.not_lt.mp g3) (Nat.not_lt.mp g1))
            subst e1
            by_cases g4 : cc.toNat < ca.toNat
            · simp [g2, g4] at h2
            · have e2 : ca = cc := char_toNat_inj _ _ (Nat.le_antisymm (Nat.not_lt.mp g4) (Nat.not_lt.mp g2))
              subst e2
              simp [g1] at h1 h2 ⊢
              exact ih rb rc h1 h2

theorem keyLt_ne (a b : List Char) (h : keyLt a b = true) : a ≠ b := by
  intro e
  subst e
  rw [keyLt_irrefl] at h
  cases h

theorem lookupK_insertSorted_self (l : List (List Char × JsonValue))
    (k : List Char) (v : JsonValue) :
    lookupK (insertSorted k v l) k = some v := by
  induction l with
  | nil => simp [insertSorted, lookupK]
  | cons kv rest ih =>
    by_cases h1 : keyLt k kv.1 = true
    · simp [insertSorted, h1, lookupK]
    · by_cases h2 : keyLt kv.1 k = true
      · have hne : k ≠ kv.1 := fun e => by
          rw [e] at h2
          rw [keyLt_irrefl] at h2
          cases h2
        simp [insertSorted, h1, h2, lookupK, hne, ih]
      · simp [insertSorted, h1, h2, lookupK]

theorem lookupK_insertSorted_ne (l : List (List Char × JsonValue))
    (k q : List Char) (v : JsonValue) (hq : q ≠ k) :
    lookupK (insertSorted k v l) q = lookupK l q := by
  induction l with
  | nil => simp [insertSorted, lookupK, hq]
  | cons kv rest ih =>
    by_cases h1 : keyLt k kv.1 = true
    · simp [insertSorted, h1, lookupK, hq]
    · by_cases h2 : keyLt kv.1 k = true
      · simp [insertSorted, h1, h2, lookupK, ih]
      · have he : k = kv.1 := keyLt_total _ _ (by simpa using h1) (by simpa using h2)
        have hq2 : q ≠ kv.1 := fun e => hq (e.trans he.symm)
        simp [insertSorted, h1, h2, lookupK, hq, hq2]

theorem sortedKeys_tail (kv : List Char × JsonValue)
    (rest : List (List Char × JsonValue)) (h : sortedKeys (kv :: rest) = true) :
    sortedKeys rest = true := by
  cases rest with
  | nil => rfl
  | cons kv2 r2 =>
    simp only [sortedKeys, Bool.and_eq_true] at h
    exact h.2

theorem sorted_head_lt (k : List Char) (v : JsonValue)
    (rest : List (List Char × JsonValue)) (h : sortedKeys ((k, v) :: rest) = true) :
    ∀ kv2 ∈ rest, keyLt k kv2.1 = true := by
  induction rest generalizing v with
  | nil => intro kv2 h2; cases h2
  | cons kv3 r3 ih =>
    intro kv2 h2
    simp only [sortedKeys, Bool.and_eq_true] at h
    rcases List.mem_cons.mp h2 with rfl | hmem
    · exact h.1
    · have hs3 : sortedKeys ((k, v) :: r3) = true := by
        cases r3 with
        | nil => rfl
        | cons kv4 r4 =>
          simp only [sortedKeys, Bool.and_eq_true] at h ⊢
          exact ⟨keyLt_trans _ _ _ h.1 h.2.1, h.2.2⟩
      exact ih v hs3 kv2 hmem

theorem sorted_lookup_tail_none (k : List Char) (v : JsonValue)
    (rest : List (List Char × JsonValue)) (h : sortedKeys ((k, v) :: rest) = true) :
    lookupK rest k = none := by
  have hlt := sorted_head_lt k v rest h
  induction rest with
  | nil => rfl
  | cons kv2 r2 ih =>
    have h2 := hlt kv2 (List.mem_cons_self _ _)
    have hne : k ≠ kv2.1 := keyLt_ne _ _ h2
    simp only [lookupK, hne, if_false, ite_false, reduceIte]
    refine ih ?_ ?_
    · cases r2 with
      | nil => rfl
      | cons kv3 r3 =>
        simp only [sortedKeys, Bool.and_eq_true] at h ⊢
        exact ⟨keyLt_trans _ _ _ h.1 h.2.1, h.2.2⟩
    · intro kv3 h3
      exact hlt kv3 (List.mem_cons_of_mem _ h3)

theorem insertSorted_sorted (l : List (List Char × JsonValue))
    (k : List Char) (v : JsonValue) (h : sortedKeys l = true) :
    sortedKeys (insertSorted k v l) = true := by
  induction l with
  | nil => rfl
  | cons kv rest ih =>
    by_cases h1 : keyLt k kv.1 = true
    · simp only [insertSorted, h1, if_true, reduceIte]
      simp only [sortedKeys, Bool.and_eq_true]
      exact ⟨h1, h⟩
    · by_cases h2 : keyLt kv.1 k = true
      · simp only [insertSorted, h1, h2, if_false, if_true, ite_false, reduceIte]
        have hrest := sortedKeys_tail _ _ h
        have hins := ih hrest
        cases rest with
        | nil =>
          simp [insertSorted, sortedKeys, h2]
        | cons kv2 r2 =>
          by_cases g1 : keyLt k kv2.1 = true
          · have hh := hins
            simp only [insertSorted, g1, if_true, reduceIte] at hh
            simp only [insertSorted, g1, if_true, reduceIte, sortedKeys,
              Bool.and_eq_true] at hh ⊢
            exact ⟨h2, hh⟩
          · by_cases g2 : keyLt kv2.1 k = true
            · have hh := hins
              simp only [sortedKeys, Bool.and_eq_true] at h
              simp only [insertSorted, g1, g2, if_false, if_true, ite_false, reduceIte,
                sortedKeys, Bool.and_eq_true] at hh ⊢
              exact ⟨h.1, hh⟩
            · have he : k = kv2.1 := keyLt_total _ _ (by simpa using g1) (by simpa using g2)
              have hh := hins
              simp only [sortedKeys, Bool.and_eq_true] at h
              simp only [insertSorted, g1, g2, if_false, ite_false, reduceIte,
                sortedKeys, Bool.and_eq_true] at hh ⊢
              exact ⟨he ▸ h.1, hh⟩
      · have he : k = kv.1 := keyLt_total _ _ (by simpa using h1) (by simpa using h2)
        simp only [insertSorted, h1, h2, if_false, ite_false, reduceIte]
        cases rest with
        | nil => rfl
        | cons kv2 r2 =>
          simp only [sortedKeys, Bool.and_eq_true] at h ⊢
          exact ⟨he ▸ h.1, h.2⟩

theorem merge_into_sorted (old new : List (List Char × JsonValue))
    (h : sortedKeys old = true) : sortedKeys (merge_into old new) = true := by
  induction new generalizing old with
  | nil => rw [merge_into_nil]; exact h
  | cons kv rest ih =>
    obtain ⟨k, v⟩ := kv
    rw [merge_into_cons]
    exact ih _ (insertSorted_sorted _ _ _ h)

theorem merge_into_lookup (old new : List (List Char × JsonValue))
    (ho : sortedKeys old = true) (hn : sortedKeys new = true) (q : List Char) :
    lookupK (merge_into old new) q
      = match lookupK new q with
        | some nv => some (merge_key (lookupK old q) nv)
        | none => lookupK old q := by
  induction new generalizing old with
  | nil => simp [merge_into_nil, lookupK]
  | cons kv rest ih =>
    obtain ⟨k, v⟩ := kv
    rw [merge_into_cons]
    have hrest : sortedKeys rest = true := sortedKeys_tail _ _ hn
    have ho' : sortedKeys (insertSorted k (merge_key (lookupK old k) v) old) = true :=
      insertSorted_sorted _ _ _ ho
    rw [ih _ ho' hrest]
    by_cases hq : q = k
    · subst hq
      have hnone : lookupK rest q = none := sorted_lookup_tail_none q v rest hn
      rw [hnone]
      simp [lookupK, lookupK_insertSorted_self]
    · have heq : lookupK (insertSorted k (merge_key (lookupK old k) v) old) q = lookupK old q :=
        lookupK_insertSorted_ne _ _ _ _ hq
      rw [heq]
      simp [lookupK, hq]

/-- C2: the merge function, characterized.  On two objects (in canonical
well-formed representation) the result is an object whose binding at
every key is: the recursive merge of the two bound values when both bind
the key, the new value when only the new object binds it, and the old
value when only the old object binds it.  On every other combination of
values the result is exactly the new value. -/
theorem merge_json_characterization :
    (∀ ol nl, sortedKeys ol = true → sortedKeys nl = true →
      merge_json (.obj ol) (.obj nl) = .obj (merge_into ol nl) ∧
      ∀ k, lookupK (merge_into ol nl) k
        = match lookupK nl k with
          | some nv => some (merge_key (lookupK ol k) nv)
          | none => lookupK ol k) ∧
    (∀ old new, (isObjB old && isObjB new) = false → merge_json old new = new) := by
  constructor
  · intro ol nl ho hn
    exact ⟨merge_json_obj ol nl, fun k => merge_into_lookup ol nl ho hn k⟩
  · intro old new h
    exact merge_json_other old new h

/-- C2 witness: the characterization applied to two concrete objects
sharing the key b, and to a non-object combination. -/
theorem merge_json_characterization_witness :
    lookupK (merge_into [("a".toList, .int 1), ("b".toList, .int 2)]
                        [("b".toList, .int 3), ("c".toList, .int 4)]) ("b".toList)
      = some (merge_key (some (.int 2)) (.int 3)) ∧
    merge_json (.int 1) (.obj []) = .obj [] := by
  constructor
  · have h := ((merge_json_characterization.1
      [("a".toList, .int 1), ("b".toList, .int 2)]
      [("b".toList, .int 3), ("c".toList, .int 4)]
      (by decide) (by decide)).2 ("b".toList))
    rw [h]
    simp [lookupK]
  · exact merge_json_characterization.2 (.int 1) (.obj []) rfl
theorem wfJ_obj (l : List (List Char × JsonValue)) :
    wfJ (.obj l) = (sortedKeys l && wfL l) := by
  rw [wfJ.eq_def]

theorem wfJ_not_obj (v : JsonValue) (h : isObjB v = false) : wfJ v = true := by
  rw [wfJ.eq_def]
  cases v <;> simp [isObjB] at h ⊢

theorem wfL_nil : wfL [] = true := by
  rw [wfL.eq_def]

theorem wfL_cons (k : List Char) (v : JsonValue) (r : List (List Char × JsonValue)) :
    wfL ((k, v) :: r) = (wfJ v && wfL r) := by
  rw [wfL.eq_def]

theorem objCompat_obj (bl cl : List (List Char × JsonValue)) :
    objCompat (.obj bl) (.obj cl) = objCompatL bl cl := by
  rw [objCompat.eq_def]

theorem objCompat_not_obj_c (b c : JsonValue) (h : isObjB c = false) :
    objCompat b c = true := by
  rw [objCompat.eq_def]
  cases c <;> simp [isObjB] at h ⊢

theorem objCompat_not_obj_b (b : JsonValue) (cl : List (List Char × JsonValue))
    (h : isObjB b = false) : objCompat b (.obj cl) = false := by
  rw [objCompat.eq_def]
  cases b <;> simp [isObjB] at h ⊢

theorem objCompatL_nil (bl : List (List Char × JsonValue)) : objCompatL bl [] = true := by
  rw [objCompatL.eq_def]

theorem objCompatL_cons (bl : List (List Char × JsonValue)) (k : List Char)
    (cv : JsonValue) (rest : List (List Char × JsonValue)) :
    objCompatL bl ((k, cv) :: rest)
      = ((match lookupK bl k with
          | some bv => objCompat bv cv
          | none => true) && objCompatL bl rest) := by
  rw [objCompatL.eq_def]

theorem lookupK_mem (l : List (List Char × JsonValue)) (q : List Char) (v : JsonValue)
    (h : lookupK l q = some v) : (q, v) ∈ l := by
  induction l with
  | nil => simp [lookupK] at h
  | cons kv r ih =>
    by_cases hq : q = kv.1
    · simp only [lookupK, hq, if_true, reduceIte, Option.some.injEq] at h
      subst h
      rw [hq]
      exact List.mem_cons_self _ _
    · simp only [lookupK, hq, if_false, ite_false, reduceIte] at h
      exact List.mem_cons_of_mem _ (ih h)

theorem wfL_lookup (l : List (List Char × JsonValue)) (q : List Char) (v : JsonValue)
    (hw : wfL l = true) (h : lookupK l q = some v) : wfJ v = true := by
  induction l with
  | nil => simp [lookupK] at h
  | cons kv r ih =>
    obtain ⟨k0, v0⟩ := kv
    rw [wfL_cons, Bool.and_eq_true] at hw
    by_cases hq : q = k0
    · simp only [lookupK, hq, if_true, reduceIte, Option.some.injEq] at h
      subst h
      exact hw.1
    · simp only [lookupK, hq, if_false, ite_false, reduceIte] at h
      exact ih hw.2 h

theorem objCompatL_lookup (bl cl : List (List Char × JsonValue)) (k : List Char)
    (bv cv : JsonValue) (hcomp : objCompatL bl cl = true)
    (hc : lookupK cl k = some cv) (hb : lookupK bl k = some bv) :
    objCompat bv cv = true := by
  induction cl with
  | nil => simp [lookupK] at hc
  | cons kv r ih =>
    obtain ⟨k0, cv0⟩ := kv
    rw [objCompatL_cons, Bool.and_eq_true] at hcomp
    by_cases hq : k = k0
    · simp only [lookupK, hq, if_true, reduceIte, Option.some.injEq] at hc
      subst hc
      have := hcomp.1
      rw [hq] at hb
      rw [hb] at this
      exact this
    · simp only [lookupK, hq, if_false, ite_false, reduceIte] at hc
      exact ih hcomp.2 hc

theorem lookupK_sizeOf (l : List (List Char × JsonValue)) (q : List Char) (v : JsonValue)
    (h : lookupK l q = some v) : sizeOf v < sizeOf l := by
  induction l with
  | nil => simp [lookupK] at h
  | cons kv r ih =>
    by_cases hq : q = kv.1
    · simp only [lookupK, hq, if_true, reduceIte, Option.some.injEq] at h
      subst h
      obtain ⟨k0, v0⟩ := kv
      simp
      omega
    · simp only [lookupK, hq, if_false, ite_false, reduceIte] at h
      have := ih h
      simp
      omega

theorem wfL_of_forall (l : List (List Char × JsonValue))
    (h : ∀ kv ∈ l, wfJ kv.2 = true) : wfL l = true := by
  induction l with
  | nil => exact wfL_nil
  | cons kv r ih =>
    obtain ⟨k0, v0⟩ := kv
    rw [wfL_cons, Bool.and_eq_true]
    exact ⟨h _ (List.mem_cons_self _ _), ih (fun kv2 hm => h kv2 (List.mem_cons_of_mem _ hm))⟩

theorem sorted_mem_lookup (l : List (List Char × JsonValue)) (k : List Char)
    (v : JsonValue) (hs : sortedKeys l = true) (hm : (k, v) ∈ l) :
    lookupK l k = some v := by
  induction l with
  | nil => cases hm
  | cons kv r ih =>
    obtain ⟨k0, v0⟩ := kv
    rcases List.mem_cons.mp hm with he | hmem
    · rw [Prod.mk.injEq] at he
      obtain ⟨e1, e2⟩ := he
      simp [lookupK, e1, e2]
    · have hlt := sorted_head_lt k0 v0 r hs (k, v) hmem
      have hne : k ≠ k0 := fun e => keyLt_ne _ _ hlt (by rw [e])
      simp only [lookupK, hne, if_false, ite_false, reduceIte]
      exact ih (sortedKeys_tail _ _ hs) hmem

theorem sorted_ext (l1 : List (List Char × JsonValue)) :
    ∀ l2, sortedKeys l1 = true → sortedKeys l2 = true →
      (∀ q, lookupK l1 q = lookupK l2 q) → l1 = l2 := by
  induction l1 with
  | nil =>
    intro l2 _ _ h
    cases l2 with
    | nil => rfl
    | cons kv r =>
      obtain ⟨k0, v0⟩ := kv
      have := h k0
      simp [lookupK] at this
  | cons kv r1 ih =>
    intro l2 h1 h2 h
    obtain ⟨k1, v1⟩ := kv
    cases l2 with
    | nil =>
      have := h k1
      simp [lookupK] at this
    | cons kv2 r2 =>
      obtain ⟨k2, v2⟩ := kv2
      have e1 : lookupK ((k2, v2) :: r2) k1 = some v1 := by
        rw [← h k1]
        simp [lookupK]
      have e2 : lookupK ((k1, v1) :: r1) k2 = some v2 := by
        rw [h k2]
        simp [lookupK]
      have hk : k1 = k2 := by
        by_cases hk : k1 = k2
        · exact hk
        · exfalso
          have m1 : (k1, v1) ∈ r2 := by
            have := e1
            simp only [lookupK, hk, if_false, ite_false, reduceIte] at this
            exact lookupK_mem _ _ _ this
          have m2 : (k2, v2) ∈ r1 := by
            have hk2 : k2 ≠ k1 := fun e => hk e.symm
            have := e2
            simp only [lookupK, hk2, if_false, ite_false, reduceIte] at this
            exact lookupK_mem _ _ _ this
          have lt1 : keyLt k2 k1 = true := sorted_head_lt k2 v2 r2 h2 (k1, v1) m1
          have lt2 : keyLt k1 k2 = true := sorted_head_lt k1 v1 r1 h1 (k2, v2) m2
          rw [keyLt_asymm _ _ lt2] at lt1
          cases lt1
      subst hk
      have hv : v1 = v2 := by
        have := h k1
        simp [lookupK] at this
        exact this
      subst hv
      have htails : ∀ q, lookupK r1 q = lookupK r2 q := by
        intro q
        by_cases hq : q = k1
        · subst hq
          rw [sorted_lookup_tail_none q v1 r1 h1, sorted_lookup_tail_none q v1 r2 h2]
        · have := h q
          simp only [lookupK, hq, if_false, ite_false, reduceIte] at this
          exact this
      rw [ih r2 (sortedKeys_tail _ _ h1) (sortedKeys_tail _ _ h2) htails]

theorem wf_merge_aux : ∀ n a b, sizeOf b ≤ n → wfJ a = true → wfJ b = true →
    wfJ (merge_json a b) = true := by
  intro n
  induction n with
  | zero =>
    intro a b hn _ _
    exfalso
    cases b <;> simp at hn
  | succ n ih =>
    intro a b hn ha hb
    cases b with
    | obj bl =>
      cases a with
      | obj al =>
        rw [merge_json_obj]
        rw [wfJ_obj, Bool.and_eq_true] at ha hb
        rw [wfJ_obj, Bool.and_eq_true]
        refine ⟨merge_into_sorted _ _ ha.1, ?_⟩
        apply wfL_of_forall
        intro kv hm
        have hlk : lookupK (merge_into al bl) kv.1 = some kv.2 :=
          sorted_mem_lookup _ _ _ (merge_into_sorted _ _ ha.1) hm
        rw [merge_into_lookup _ _ ha.1 hb.1 kv.1] at hlk
        cases hc : lookupK bl kv.1 with
        | none =>
          rw [hc] at hlk
          simp only at hlk
          exact wfL_lookup _ _ _ ha.2 hlk
        | some nv =>
          rw [hc] at hlk
          simp only [Option.some.injEq] at hlk
          have hnv : wfJ nv = true := wfL_lookup _ _ _ hb.2 hc
          cases ho : lookupK al kv.1 with
          | none =>
            rw [ho] at hlk
            simp only [merge_key] at hlk
            rw [← hlk]
            exact hnv
          | some ov =>
            rw [ho] at hlk
            have hov : wfJ ov = true := wfL_lookup _ _ _ ha.2 ho
            have hsz : sizeOf nv ≤ n := by
              have h1 := lookupK_sizeOf _ _ _ hc
              have h2 : sizeOf (JsonValue.obj bl) = 1 + sizeOf bl := by simp
              omega
            have hres := ih ov nv hsz hov hnv
            rw [← hlk]
            simpa only [merge_key] using hres
      | null =>
        rw [merge_json_other JsonValue.null (JsonValue.obj bl) rfl]
        exact hb
      | bool x =>
        rw [merge_json_other (JsonValue.bool x) (JsonValue.obj bl) rfl]
        exact hb
      | int x =>
        rw [merge_json_other (JsonValue.int x) (JsonValue.obj bl) rfl]
        exact hb
      | flt x =>
        rw [merge_json_other (JsonValue.flt x) (JsonValue.obj bl) rfl]
        exact hb
      | str x =>
        rw [merge_json_other (JsonValue.str x) (JsonValue.obj bl) rfl]
        exact hb
      | arr x =>
        rw [merge_json_other (JsonValue.arr x) (JsonValue.obj bl) rfl]
        exact hb
    | null =>
      rw [merge_json_other a JsonValue.null (Bool.and_false _)]
      exact hb
    | bool x =>
      rw [merge_json_other a (JsonValue.bool x) (Bool.and_false _)]
      exact hb
    | int x =>
      rw [merge_json_other a (JsonValue.int x) (Bool.and_false _)]
      exact hb
    | flt x =>
      rw [merge_json_other a (JsonValue.flt x) (Bool.and_false _)]
      exact hb
    | str x =>
      rw [merge_json_other a (JsonValue.str x) (Bool.and_false _)]
      exact hb
    | arr x =>
      rw [merge_json_other a (JsonValue.arr x) (Bool.and_false _)]
      exact hb

theorem wf_merge (a b : JsonValue) (ha : wfJ a = true) (hb : wfJ b = true) :
    wfJ (merge_json a b) = true :=
  wf_merge_aux (sizeOf b) a b le_rfl ha hb

theorem merge_assoc_aux : ∀ n a b c, sizeOf c ≤ n →
    wfJ a = true → wfJ b = true → wfJ c = true → objCompat b c = true →
    merge_json (merge_json a b) c = merge_json a (merge_json b c) := by
  intro n
  induction n with
  | zero =>
    intro a b c hn _ _ _ _
    exfalso
    cases c <;> simp at hn
  | succ n ih =>
    intro a b c hn ha hb hc hbc
    cases c with
    | null =>
      rw [merge_json_other _ JsonValue.null (Bool.and_false _),
          merge_json_other b JsonValue.null (Bool.and_false _),
          merge_json_other a JsonValue.null (Bool.and_false _)]
    | bool x =>
      rw [merge_json_other _ (JsonValue.bool x) (Bool.and_false _),
          merge_json_other b (JsonValue.bool x) (Bool.and_false _),
          merge_json_other a (JsonValue.bool x) (Bool.and_false _)]
    | int x =>
      rw [merge_json_other _ (JsonValue.int x) (Bool.and_false _),
          merge_json_other b (JsonValue.int x) (Bool.and_false _),
          merge_json_other a (JsonValue.int x) (Bool.and_false _)]
    | flt x =>
      rw [merge_json_other _ (JsonValue.flt x) (Bool.and_false _),
          merge_json_other b (JsonValue.flt x) (Bool.and_false _),
          merge_json_other a (JsonValue.flt x) (Bool.and_false _)]
    | str x =>
      rw [merge_json_other _ (JsonValue.str x) (Bool.and_false _),
          merge_json_other b (JsonValue.str x) (Bool.and_false _),
          merge_json_other a (JsonValue.str x) (Bool.and_false _)]
    | arr x =>
      rw [merge_json_other _ (JsonValue.arr x) (Bool.and_false _),
          merge_json_other b (JsonValue.arr x) (Bool.and_false _),
          merge_json_other a (JsonValue.arr x) (Bool.and_false _)]
    | obj cl =>
      cases b with
      | null => rw [objCompat_not_obj_b JsonValue.null cl rfl] at hbc; exact Bool.noConfusion hbc
      | bool x => rw [objCompat_not_obj_b (JsonValue.bool x) cl rfl] at hbc; exact Bool.noConfusion hbc
      | int x => rw [objCompat_not_obj_b (JsonValue.int x) cl rfl] at hbc; exact Bool.noConfusion hbc
      | flt x => rw [objCompat_not_obj_b (JsonValue.flt x) cl rfl] at hbc; exact Bool.noConfusion hbc
      | str x => rw [objCompat_not_obj_b (JsonValue.str x) cl rfl] at hbc; exact Bool.noConfusion hbc
      | arr x => rw [objCompat_not_obj_b (JsonValue.arr x) cl rfl] at hbc; exact Bool.noConfusion hbc
      | obj bl =>
        cases a with
        | null =>
          rw [merge_json_other JsonValue.null (JsonValue.obj bl) rfl, merge_json_obj bl cl,
              merge_json_other JsonValue.null (JsonValue.obj (merge_into bl cl)) rfl]
        | bool y =>
          rw [merge_json_other (JsonValue.bool y) (JsonValue.obj bl) rfl, merge_json_obj bl cl,
              merge_json_other (JsonValue.bool y) (JsonValue.obj (merge_into bl cl)) rfl]
        | int y =>
          rw [merge_json_other (JsonValue.int y) (JsonValue.obj bl) rfl, merge_json_obj bl cl,
              merge_json_other (JsonValue.int y) (JsonValue.obj (merge_into bl cl)) rfl]
        | flt y =>
          rw [merge_json_other (JsonValue.flt y) (JsonValue.obj bl) rfl, merge_json_obj bl cl,
              merge_json_other (JsonValue.flt y) (JsonValue.obj (merge_into bl cl)) rfl]
        | str y =>
          rw [merge_json_other (JsonValue.str y) (JsonValue.obj bl) rfl, merge_json_obj bl cl,
              merge_json_other (JsonValue.str y) (JsonValue.obj (merge_into bl cl)) rfl]
        | arr y =>
          rw [merge_json_other (JsonValue.arr y) (JsonValue.obj bl) rfl, merge_json_obj bl cl,
              merge_json_other (JsonValue.arr y) (JsonValue.obj (merge_into bl cl)) rfl]
        | obj al =>
          rw [wfJ_obj, Bool.and_eq_true] at ha hb hc
          rw [objCompat_obj] at hbc
          rw [merge_json_obj al bl, merge_json_obj bl cl,
              merge_json_obj (merge_into al bl) cl,
              merge_json_obj al (merge_into bl cl)]
          congr 1
          refine sorted_ext _ _
            (merge_into_sorted _ _ (merge_into_sorted _ _ ha.1))
            (merge_into_sorted _ _ ha.1) ?_
          intro q
          rw [merge_into_lookup _ _ (merge_into_sorted _ _ ha.1) hc.1 q,
              merge_into_lookup _ _ ha.1 hb.1 q,
              merge_into_lookup _ _ ha.1 (merge_into_sorted _ _ hb.1) q,
              merge_into_lookup _ _ hb.1 hc.1 q]
          cases hcq : lookupK cl q with
          | none => rfl
          | some cv =>
            cases hbq : lookupK bl q with
            | none => simp [merge_key]
            | some bv =>
              cases haq : lookupK al q with
              | none => simp [merge_key]
              | some av =>
                simp only [merge_key, Option.some.injEq]
                have hsz : sizeOf cv ≤ n := by
                  have h1 := lookupK_sizeOf _ _ _ hcq
                  have h2 : sizeOf (JsonValue.obj cl) = 1 + sizeOf cl := by simp
                  omega
                exact ih av bv cv hsz
                  (wfL_lookup _ _ _ ha.2 haq)
                  (wfL_lookup _ _ _ hb.2 hbq)
                  (wfL_lookup _ _ _ hc.2 hcq)
                  (objCompatL_lookup _ _ _ _ _ hbc hcq hbq)

/-- C5 counterexample: merge_json is not associative.  With the object
binding x to one as the first argument, the integer five as the second
and the empty object as the third, the left-associated merge gives the
empty object while the right-associated merge keeps the x binding. -/
theorem merge_json_not_assoc_cex :
    merge_json (merge_json (.obj [("x".toList, .int 1)]) (.int 5)) (.obj [])
      ≠ merge_json (.obj [("x".toList, .int 1)]) (merge_json (.int 5) (.obj [])) := by
  have h1 : merge_json (merge_json (.obj [("x".toList, .int 1)]) (.int 5)) (.obj [])
      = .obj [] := by
    rw [merge_json_other (.obj [("x".toList, .int 1)]) (.int 5) rfl,
        merge_json_other (.int 5) (.obj []) rfl]
  have h2 : merge_json (.obj [("x".toList, .int 1)]) (merge_json (.int 5) (.obj []))
      = .obj [("x".toList, .int 1)] := by
    rw [merge_json_other (.int 5) (.obj []) rfl, merge_json_obj, merge_into_nil]
  rw [h1, h2]
  simp

/-- C5 amended: merge_json is associative on well-formed values whenever
the second and the third argument are object-compatible — wherever the
third value is an object (also at nested keys), the second value is an
object too.  Without that condition associativity fails. -/
theorem merge_json_assoc_compat (a b c : JsonValue)
    (ha : wfJ a = true) (hb : wfJ b = true) (hc : wfJ c = true)
    (hbc : objCompat b c = true) :
    merge_json (merge_json a b) c = merge_json a (merge_json b c) :=
  merge_assoc_aux (sizeOf c) a b c le_rfl ha hb hc hbc

/-- C5 witness: associativity applied at three concrete objects in which
the same key is rebound. -/
theorem merge_json_assoc_compat_witness :
    merge_json
        (merge_json (.obj [("x".toList, .int 1)]) (.obj [("y".toList, .int 2)]))
        (.obj [("y".toList, .int 3)])
      = merge_json (.obj [("x".toList, .int 1)])
          (merge_json (.obj [("y".toList, .int 2)]) (.obj [("y".toList, .int 3)])) := by
  apply merge_json_assoc_compat
  · rw [wfJ_obj]
    simp [sortedKeys, wfL_cons, wfL_nil, wfJ_not_obj (JsonValue.int 1) rfl]
  · rw [wfJ_obj]
    simp [sortedKeys, wfL_cons, wfL_nil, wfJ_not_obj (JsonValue.int 2) rfl]
  · rw [wfJ_obj]
    simp [sortedKeys, wfL_cons, wfL_nil, wfJ_not_obj (JsonValue.int 3) rfl]
  · rw [objCompat_obj, objCompatL_cons]
    simp [lookupK, objCompatL_nil, objCompat_not_obj_c _ (JsonValue.int 3) rfl]
theorem sepGo_nil (m nlF cF : Bool) : sepGo m nlF cF [] = ([], [], nlF, cF) := by
  cases m <;> rfl

theorem sepGo_sp (c : Char) (r : List Char) (nlF cF : Bool) (h : c = ' ' ∨ c = '\t') :
    sepGo false nlF cF (c :: r)
      = (c :: (sepGo false nlF cF r).1, (sepGo false nlF cF r).2) := by
  rw [sepGo.eq_def]
  rcases h with rfl | rfl <;> simp

theorem sepGo_false_nl (r : List Char) (nlF cF : Bool) :
    sepGo false nlF cF ('\n' :: r)
      = ('\n' :: (sepGo false true cF r).1, (sepGo false true cF r).2) := by
  rw [sepGo.eq_def]
  simp

theorem sepGo_hash (r : List Char) (nlF cF : Bool) :
    sepGo false nlF cF ('#' :: r)
      = ('#' :: (sepGo true nlF cF r).1, (sepGo true nlF cF r).2) := by
  rw [sepGo.eq_def]
  simp

theorem sepGo_comma (r : List Char) (nlF : Bool) :
    sepGo false nlF false (',' :: r)
      = (',' :: (sepGo false nlF true r).1, (sepGo false nlF true r).2) := by
  rw [sepGo.eq_def]
  simp

theorem sepGo_comma_stop (r : List Char) (nlF : Bool) :
    sepGo false nlF true (',' :: r) = ([], ',' :: r, nlF, true) := by
  rw [sepGo.eq_def]
  simp

theorem sepGo_slash2 (r : List Char) (nlF cF : Bool) :
    sepGo false nlF cF ('/' :: '/' :: r)
      = ('/' :: '/' :: (sepGo true nlF cF r).1, (sepGo true nlF cF r).2) := by
  rw [sepGo.eq_def]
  simp

theorem sepGo_true_nl (r : List Char) (nlF cF : Bool) :
    sepGo true nlF cF ('\n' :: r)
      = ('\n' :: (sepGo false true cF r).1, (sepGo false true cF r).2) := by
  rw [sepGo.eq_def]
  simp

theorem sepGo_true_other (c : Char) (r : List Char) (nlF cF : Bool) (h : c ≠ '\n') :
    sepGo true nlF cF (c :: r)
      = (c :: (sepGo true nlF cF r).1, (sepGo true nlF cF r).2) := by
  rw [sepGo.eq_def]
  simp [h]

theorem sepGo_stop (c : Char) (r : List Char) (nlF cF : Bool)
    (h1 : c ≠ ' ') (h2 : c ≠ '\t') (h3 : c ≠ '\n') (h4 : c ≠ '#')
    (h5 : (decide (c = ',') && !cF) = false) (h6 : c ≠ '/') :
    sepGo false nlF cF (c :: r) = ([], c :: r, nlF, cF) := by
  rw [sepGo.eq_def]
  simp [h1, h2, h3, h4, h5, h6]

theorem sepGo_slash1_nil (nlF cF : Bool) :
    sepGo false nlF cF ('/' :: []) = ([], ['/'], nlF, cF) := by
  rw [sepGo.eq_def]
  simp

theorem sepGo_slash1 (c2 : Char) (r2 : List Char) (nlF cF : Bool) (h : c2 ≠ '/') :
    sepGo false nlF cF ('/' :: c2 :: r2) = ([], '/' :: c2 :: r2, nlF, cF) := by
  rw [sepGo.eq_def]
  simp [h]

theorem sepGo_comment_run (s : List Char) (h : ∀ ch ∈ s, ch ≠ '\n') :
    ∀ t nlF cF, sepGo true nlF cF (s ++ '\n' :: t)
      = (s ++ '\n' :: (sepGo false true cF t).1, (sepGo false true cF t).2) := by
  induction s with
  | nil =>
    intro t nlF cF
    simpa using sepGo_true_nl t nlF cF
  | cons c s2 ih =>
    intro t nlF cF
    have hc : c ≠ '\n' := h c (List.mem_cons_self _ _)
    have ih2 := ih (fun ch hm => h ch (List.mem_cons_of_mem _ hm)) t nlF cF
    rw [List.cons_append, sepGo_true_other c _ nlF cF hc, ih2]
    simp

theorem sepGo_comment_eof (s : List Char) (h : ∀ ch ∈ s, ch ≠ '\n') :
    ∀ nlF cF, sepGo true nlF cF s = (s, [], nlF, cF) := by
  induction s with
  | nil =>
    intro nlF cF
    exact sepGo_nil true nlF cF
  | cons c s2 ih =>
    intro nlF cF
    have hc : c ≠ '\n' := h c (List.mem_cons_self _ _)
    rw [sepGo_true_other c _ nlF cF hc, ih (fun ch hm => h ch (List.mem_cons_of_mem _ hm))]

theorem list_split_nl (l : List Char) :
    (∀ ch ∈ l, ch ≠ '\n') ∨ ∃ s t, l = s ++ '\n' :: t ∧ ∀ ch ∈ s, ch ≠ '\n' := by
  induction l with
  | nil => exact Or.inl (fun ch hm => absurd hm (List.not_mem_nil _))
  | cons c r ih =>
    by_cases hc : c = '\n'
    · subst hc
      exact Or.inr ⟨[], r, rfl, fun ch hm => absurd hm (List.not_mem_nil _)⟩
    · rcases ih with h | ⟨s, t, rfl, hs⟩
      · refine Or.inl ?_
        intro ch hm
        rcases List.mem_cons.mp hm with rfl | hm2
        · exact hc
        · exact h ch hm2
      · refine Or.inr ⟨c :: s, t, rfl, ?_⟩
        intro ch hm
        rcases List.mem_cons.mp hm with rfl | hm2
        · exact hc
        · exact hs ch hm2

theorem sepGo_toks_stop (input : List Char) (nlF cF : Bool)
    (h : sepGo false nlF cF input = ([], input, nlF, cF)) :
    SepToksOk nlF cF input := by
  unfold SepToksOk
  rw [h]
  refine ⟨[], rfl, rfl, rfl, ?_, ?_, ?_, ?_⟩
  · intro hcf
    subst hcf
    simp [countComma]
  · intro hcf
    exact ⟨rfl, hcf⟩
  · intro hnf
    subst hnf
    simp [countNl]
  · intro hnf
    exact hnf

theorem sepGo_toks : ∀ N (input : List Char), input.length ≤ N →
    ∀ nlF cF, SepToksOk nlF cF input := by
  intro N
  induction N with
  | zero =>
    intro input hlen nlF cF
    have he : input = [] := List.length_eq_zero.mp (Nat.le_zero.mp hlen)
    subst he
    exact sepGo_toks_stop [] nlF cF (sepGo_nil false nlF cF)
  | succ N ih =>
    intro input hlen nlF cF
    cases input with
    | nil => exact sepGo_toks_stop [] nlF cF (sepGo_nil false nlF cF)
    | cons c r =>
      have hlen2 : r.length ≤ N := by
        simp only [List.length_cons] at hlen
        omega
      by_cases hsp : c = ' ' ∨ c = '\t'
      · obtain ⟨toks', hwf, hflat, hsplit, h4, h5, h6, h7⟩ := ih r hlen2 nlF cF
        unfold SepToksOk
        rw [sepGo_sp c r nlF cF hsp]
        refine ⟨(if c = ' ' then SepTok.sp else SepTok.tab) :: toks', ?_, ?_, ?_, ?_, ?_, ?_, ?_⟩
        · rcases hsp with rfl | rfl <;> simp [wfToks, tokBody, isCommentTok, hwf]
        · rcases hsp with rfl | rfl <;> simp [flatToks, flatTok, hflat]
        · simp [hsplit]
        · intro hcf
          rcases hsp with rfl | rfl <;> simpa [countComma] using h4 hcf
        · intro hcf
          refine ⟨?_, (h5 hcf).2⟩
          rcases hsp with rfl | rfl <;> simpa [countComma] using (h5 hcf).1
        · intro hnf
          rcases hsp with rfl | rfl <;> simpa [countNl] using h6 hnf
        · intro hnf
          exact h7 hnf
      · by_cases hnl : c = '\n'
        · subst hnl
          obtain ⟨toks', hwf, hflat, hsplit, h4, h5, h6, h7⟩ := ih r hlen2 true cF
          unfold SepToksOk
          rw [sepGo_false_nl r nlF cF]
          refine ⟨SepTok.nl :: toks', ?_, ?_, ?_, ?_, ?_, ?_, ?_⟩
          · simp [wfToks, tokBody, isCommentTok, hwf]
          · simp [flatToks, flatTok, hflat]
          · simp [hsplit]
          · intro hcf
            simpa [countComma] using h4 hcf
          · intro hcf
            exact ⟨by simpa [countComma] using (h5 hcf).1, (h5 hcf).2⟩
          · intro hnf
            simp [countNl, h7 rfl]
          · intro hnf
            exact h7 rfl
        · by_cases hhash : c = '#'
          · subst hhash
            rcases list_split_nl r with hno | ⟨s, t, rfl, hs⟩
            · unfold SepToksOk
              rw [sepGo_hash r nlF cF, sepGo_comment_eof r hno nlF cF]
              have hall : r.all (fun ch => ch ≠ '\n') = true := by
                rw [List.all_eq_true]
                intro x hx
                simpa using hno x hx
              refine ⟨[SepTok.hashC r], ?_, ?_, ?_, ?_, ?_, ?_, ?_⟩
              · simp [wfToks, tokBody, isCommentTok, hall]
                exact hno
              · simp [flatToks, flatTok]
              · simp
              · intro hcf
                subst hcf
                simp [countComma]
              · intro hcf
                exact ⟨rfl, hcf⟩
              · intro hnf
                subst hnf
                simp [countNl]
              · intro hnf
                exact hnf
            · have hlen3 : t.length ≤ N := by
                simp only [List.length_cons, List.length_append] at hlen
                omega
              obtain ⟨toks', hwf, hflat, hsplit, h4, h5, h6, h7⟩ := ih t hlen3 true cF
              unfold SepToksOk
              rw [sepGo_hash _ nlF cF, sepGo_comment_run s hs t nlF cF]
              have hall : s.all (fun ch => ch ≠ '\n') = true := by
                rw [List.all_eq_true]
                intro x hx
                simpa using hs x hx
              refine ⟨SepTok.hashC s :: SepTok.nl :: toks', ?_, ?_, ?_, ?_, ?_, ?_, ?_⟩
              · simp [wfToks, tokBody, isCommentTok, hall, hwf]
                exact hs
              · simp [flatToks, flatTok, hflat]
              · simp [List.append_assoc, hsplit]
              · intro hcf
                simpa [countComma] using h4 hcf
              · intro hcf
                exact ⟨by simpa [countComma] using (h5 hcf).1, (h5 hcf).2⟩
              · intro hnf
                simp [countNl, h7 rfl]
              · intro hnf
                exact h7 rfl
          · by_cases hcomma : c = ','
            · subst hcomma
              cases cF with
              | true => exact sepGo_toks_stop _ nlF true (sepGo_comma_stop r nlF)
              | false =>
                obtain ⟨toks', hwf, hflat, hsplit, h4, h5, h6, h7⟩ := ih r hlen2 nlF true
                unfold SepToksOk
                rw [sepGo_comma r nlF]
                refine ⟨SepTok.comma :: toks', ?_, ?_, ?_, ?_, ?_, ?_, ?_⟩
                · simp [wfToks, tokBody, isCommentTok, hwf]
                · simp [flatToks, flatTok, hflat]
                · simp [hsplit]
                · intro _
                  simp [countComma, (h5 rfl).1, (h5 rfl).2]
                · intro hcf
                  exact Bool.noConfusion hcf
                · intro hnf
                  simpa [countNl] using h6 hnf
                · intro hnf
                  exact h7 hnf
            · by_cases hslash : c = '/'
              · subst hslash
                cases r with
                | nil =>
                  exact sepGo_toks_stop _ nlF cF (sepGo_slash1_nil nlF cF)
                | cons c2 r2 =>
                  by_cases hc2 : c2 = '/'
                  · subst hc2
                    rcases list_split_nl r2 with hno | ⟨s, t, rfl, hs⟩
                    · unfold SepToksOk
                      rw [sepGo_slash2 r2 nlF cF, sepGo_comment_eof r2 hno nlF cF]
                      have hall : r2.all (fun ch => ch ≠ '\n') = true := by
                        rw [List.all_eq_true]
                        intro x hx
                        simpa using hno x hx
                      refine ⟨[SepTok.slashC r2], ?_, ?_, ?_, ?_, ?_, ?_, ?_⟩
                      · simp [wfToks, tokBody, isCommentTok, hall]
                        exact hno
                      · simp [flatToks, flatTok]
                      · simp
                      · intro hcf
                        subst hcf
                        simp [countComma]
                      · intro hcf
                        exact ⟨rfl, hcf⟩
                      · intro hnf
                        subst hnf
                        simp [countNl]
                      · intro hnf
                        exact hnf
                    · have hlen3 : t.length ≤ N := by
                        simp only [List.length_cons, List.length_append] at hlen
                        omega
                      obtain ⟨toks', hwf, hflat, hsplit, h4, h5, h6, h7⟩ := ih t hlen3 true cF
                      unfold SepToksOk
                      rw [sepGo_slash2 _ nlF cF, sepGo_comment_run s hs t nlF cF]
                      have hall : s.all (fun ch => ch ≠ '\n') = true := by
                        rw [List.all_eq_true]
                        intro x hx
                        simpa using hs x hx
                      refine ⟨SepTok.slashC s :: SepTok.nl :: toks', ?_, ?_, ?_, ?_, ?_, ?_, ?_⟩
                      · simp [wfToks, tokBody, isCommentTok, hall, hwf]
                        exact hs
                      · simp [flatToks, flatTok, hflat]
                      · simp [List.append_assoc, hsplit]
                      · intro hcf
                        simpa [countComma] using h4 hcf
                      · intro hcf
                        exact ⟨by simpa [countComma] using (h5 hcf).1, (h5 hcf).2⟩
                      · intro hnf
                        simp [countNl, h7 rfl]
                      · intro hnf
                        exact h7 rfl
                  · exact sepGo_toks_stop _ nlF cF (sepGo_slash1 c2 r2 nlF cF hc2)
              · push_neg at hsp
                refine sepGo_toks_stop _ nlF cF (sepGo_stop c r nlF cF hsp.1 hsp.2 hnl hhash ?_ hslash)
                simp [hcomma]

theorem sepGo_reaches : ∀ (toks : List SepTok) (re : List Char) (nlF cF : Bool),
    wfToks toks = true → (1 ≤ countComma toks ∨ 1 ≤ countNl toks) →
    ((sepGo false nlF cF (flatToks toks ++ re)).2.2.1 = true ∨
     (sepGo false nlF cF (flatToks toks ++ re)).2.2.2 = true) := by
  intro toks
  induction toks with
  | nil =>
    intro re nlF cF _ hcount
    simp [countComma, countNl] at hcount
  | cons t r ih =>
    intro re nlF cF hwf hcount
    cases t with
    | sp =>
      have hwf2 : wfToks r = true := by
        simpa [wfToks, isCommentTok, tokBody] using hwf
      have hc2 : 1 ≤ countComma r ∨ 1 ≤ countNl r := by
        simpa [countComma, countNl] using hcount
      have harg : flatToks (SepTok.sp :: r) ++ re = ' ' :: (flatToks r ++ re) := by
        simp [flatToks, flatTok]
      rw [harg, sepGo_sp ' ' (flatToks r ++ re) nlF cF (Or.inl rfl)]
      exact ih re nlF cF hwf2 hc2
    | tab =>
      have hwf2 : wfToks r = true := by
        simpa [wfToks, isCommentTok, tokBody] using hwf
      have hc2 : 1 ≤ countComma r ∨ 1 ≤ countNl r := by
        simpa [countComma, countNl] using hcount
      have harg : flatToks (SepTok.tab :: r) ++ re = '\t' :: (flatToks r ++ re) := by
        simp [flatToks, flatTok]
      rw [harg, sepGo_sp '\t' (flatToks r ++ re) nlF cF (Or.inr rfl)]
      exact ih re nlF cF hwf2 hc2
    | nl =>
      have harg : flatToks (SepTok.nl :: r) ++ re = '\n' :: (flatToks r ++ re) := by
        simp [flatToks, flatTok]
      rw [harg, sepGo_false_nl (flatToks r ++ re) nlF cF]
      have hst := sepGo_toks (flatToks r ++ re).length (flatToks r ++ re) le_rfl true cF
      unfold SepToksOk at hst
      obtain ⟨_, _, _, _, _, _, _, h7⟩ := hst
      exact Or.inl (h7 rfl)
    | comma =>
      have harg : flatToks (SepTok.comma :: r) ++ re = ',' :: (flatToks r ++ re) := by
        simp [flatToks, flatTok]
      cases cF with
      | true =>
        rw [harg, sepGo_comma_stop (flatToks r ++ re) nlF]
        exact Or.inr rfl
      | false =>
        rw [harg, sepGo_comma (flatToks r ++ re) nlF]
        have hst := sepGo_toks (flatToks r ++ re).length (flatToks r ++ re) le_rfl nlF true
        unfold SepToksOk at hst
        obtain ⟨_, _, _, _, _, h5, _, _⟩ := hst
        exact Or.inr (h5 rfl).2
    | hashC s =>
      cases r with
      | nil => simp [countComma, countNl] at hcount
      | cons t2 r2 =>
        cases t2 with
        | nl =>
          have hsno : ∀ ch ∈ s, ch ≠ '\n' := by
            simp [wfToks, isCommentTok, tokBody] at hwf
            exact hwf.1
          have harg : flatToks (SepTok.hashC s :: SepTok.nl :: r2) ++ re
              = '#' :: (s ++ '\n' :: (flatToks r2 ++ re)) := by
            simp [flatToks, flatTok]
          rw [harg, sepGo_hash _ nlF cF, sepGo_comment_run s hsno _ nlF cF]
          have hst := sepGo_toks (flatToks r2 ++ re).length (flatToks r2 ++ re) le_rfl true cF
          unfold SepToksOk at hst
          obtain ⟨_, _, _, _, _, _, _, h7⟩ := hst
          exact Or.inl (h7 rfl)
        | sp => simp [wfToks, isCommentTok, tokBody] at hwf
        | tab => simp [wfToks, isCommentTok, tokBody] at hwf
        | comma => simp [wfToks, isCommentTok, tokBody] at hwf
        | hashC s2 => simp [wfToks, isCommentTok, tokBody] at hwf
        | slashC s2 => simp [wfToks, isCommentTok, tokBody] at hwf
    | slashC s =>
      cases r with
      | nil => simp [countComma, countNl] at hcount
      | cons t2 r2 =>
        cases t2 with
        | nl =>
          have hsno : ∀ ch ∈ s, ch ≠ '\n' := by
            simp [wfToks, isCommentTok, tokBody] at hwf
            exact hwf.1
          have harg : flatToks (SepTok.slashC s :: SepTok.nl :: r2) ++ re
              = '/' :: '/' :: (s ++ '\n' :: (flatToks r2 ++ re)) := by
            simp [flatToks, flatTok]
          rw [harg, sepGo_slash2 _ nlF cF, sepGo_comment_run s hsno _ nlF cF]
          have hst := sepGo_toks (flatToks r2 ++ re).length (flatToks r2 ++ re) le_rfl true cF
          unfold SepToksOk at hst
          obtain ⟨_, _, _, _, _, _, _, h7⟩ := hst
          exact Or.inl (h7 rfl)
        | sp => simp [wfToks, isCommentTok, tokBody] at hwf
        | tab => simp [wfToks, isCommentTok, tokBody] at hwf
        | comma => simp [wfToks, isCommentTok, tokBody] at hwf
        | hashC s2 => simp [wfToks, isCommentTok, tokBody] at hwf
        | slashC s2 => simp [wfToks, isCommentTok, tokBody] at hwf

/-- C6: characterization of the comma-inference separator.  When it
succeeds, the consumed run decomposes into a well-formed sequence of
spaces, tabs, newlines, comments and comma tokens that contains at most
one comma (a second comma is never consumed) and contains at least one
comma or at least one newline.  When it fails, no well-formed separator
run that is a prefix of the input contains a comma or a newline — in
particular the maximal consumed run contains neither. -/
theorem inferrable_comma_characterization (input : List Char) :
    (∀ re co, inferrable_comma input = .done re co →
      ∃ toks, wfToks toks = true ∧ flatToks toks = co ∧ co ++ re = input ∧
        countComma toks ≤ 1 ∧ (1 ≤ countComma toks ∨ 1 ≤ countNl toks)) ∧
    (inferrable_comma input = .error →
      ∀ toks re, wfToks toks = true → flatToks toks ++ re = input →
        countComma toks = 0 ∧ countNl toks = 0) := by
  constructor
  · intro re co h
    have hst := sepGo_toks input.length input le_rfl false false
    unfold SepToksOk at hst
    obtain ⟨toks, hwf, hflat, hsplit, h4, _, h6, _⟩ := hst
    unfold inferrable_comma at h
    by_cases hb : ((sepGo false false false input).2.2.1
        || (sepGo false false false input).2.2.2) = true
    · rw [if_pos hb] at h
      injection h with hre hco
      subst hre
      subst hco
      have hcc : countComma toks
          = if (sepGo false false false input).2.2.2 = true then 1 else 0 := h4 rfl
      refine ⟨toks, hwf, hflat, hsplit, ?_, ?_⟩
      · rw [hcc]
        split <;> omega
      · rcases Bool.or_eq_true_iff.mp hb with hnl | hc
        · exact Or.inr ((h6 rfl).mpr hnl)
        · refine Or.inl ?_
          rw [hcc, if_pos hc]
    · rw [if_neg hb] at h
      exact absurd h (fun hh => PResult.noConfusion hh)
  · intro herr toks re hwf hflat
    by_contra hcon
    have hor : 1 ≤ countComma toks ∨ 1 ≤ countNl toks := by
      rcases Nat.eq_zero_or_pos (countComma toks) with h0 | h1
      · rcases Nat.eq_zero_or_pos (countNl toks) with g0 | g1
        · exact absurd ⟨h0, g0⟩ hcon
        · exact Or.inr g1
      · exact Or.inl h1
    have hreach := sepGo_reaches toks re false false hwf hor
    rw [hflat] at hreach
    unfold inferrable_comma at herr
    rcases hreach with hnl | hc
    · rw [if_pos (by simp [hnl])] at herr
      exact PResult.noConfusion herr
    · rw [if_pos (by simp [hc])] at herr
      exact PResult.noConfusion herr

/-- C6 witness: the failure direction applied to the concrete input of
two spaces before a scalar, decomposed as two space tokens: the separator
fails there and the run contains no comma and no newline. -/
theorem inferrable_comma_characterization_witness :
    countComma [SepTok.sp, SepTok.sp] = 0 ∧ countNl [SepTok.sp, SepTok.sp] = 0 :=
  (inferrable_comma_characterization ("  x".toList)).2 rfl
    [SepTok.sp, SepTok.sp] ("x".toList) rfl rfl
